import Mathlib

/-!
# UDP blast file transfer: sender and receiver

A shallow embedding of `udp_file_transfer.h`, `sender.cpp` and `receiver.cpp`, and the
properties of the transfer protocol proved about it. The definitions come first, the
theorems after them.

Conventions of the embedding:

* `int` and `long` values are integers (`Int`) and arithmetic on them is exact: runs
  in which a signed operation overflows are outside the model. C++ `/` is truncating
  division (`Int.tdiv`).
* A `for (int rec = a; rec <= b; rec++)` loop is a recursion over its iteration count
  `(b + 1 - a).toNat`, carrying `rec`.
* `std::map<int, std::vector<char>>` is a function `Int → Option (List Byte)`;
  `find(rec) != end()` is `store.has rec`.
* Memory read through a cast of the receive buffer is a total view (`DataView`).
* What a socket call does is explicit: the datagrams passed to `sendto` are collected
  in a list, and the results of `recvfrom` are an input (`RecvOracle` for the sender,
  a list of received datagrams for the receiver).
* Loops that the source does not bound (`while (true)`,
  `while (current_record < total_records)`) take a fuel argument.
* A function returns `none` where the process aborts (division by zero, a vector of
  negative size, `memcpy` outside its target) or where the fuel runs out.
-/

namespace UdpFileTransfer

/-! ## udp_file_transfer.h -/

/-- One `char` of file or packet data. -/
abbrev Byte := Fin 256

def TIMEOUT_SEC : Int := 2
def MAX_RETRIES : Nat := 5
def MAX_RECORDS_PER_PACKET : Int := 16
def MAX_SEGMENTS_PER_PACKET : Nat := 4

/-- Capacity of `MissingRecordsPacket::ranges` (`RecordRange ranges[100]`). -/
def REC_MISS_CAPACITY : Nat := 100

/-- The `PacketType` tags. -/
inductive PacketType where
  | FILE_HDR
  | FILE_HDR_ACK
  | DATA_PACKET
  | IS_BLAST_OVER
  | REC_MISS
  | DISCONNECT
  | DISCONNECT_ACK
deriving DecidableEq, Repr

/-- An inclusive range of record indices, `struct RecordRange`. -/
structure RecordRange where
  start : Int
  end_ : Int
deriving DecidableEq, Repr

/-- The packet `struct MissingRecordsPacket`: `ranges` lists the entries written
through `miss.ranges[miss.num_ranges++]`, in order. -/
structure MissingRecordsPacket where
  num_ranges : Int
  ranges : List RecordRange
deriving DecidableEq, Repr

/-! ## receiver.cpp: the record store and the gap scan -/

/-- The member `received_records`. -/
abbrev RecordStore := Int → Option (List Byte)

/-- The store of a freshly constructed receiver. -/
def RecordStore.empty : RecordStore := fun _ => none

/-- The assignment `received_records[rec] = record_data`. -/
def RecordStore.put (store : RecordStore) (rec : Int) (record_data : List Byte) : RecordStore :=
  fun i => if i = rec then some record_data else store i

/-- The test `received_records.find(rec) != received_records.end()`. -/
def RecordStore.has (store : RecordStore) (rec : Int) : Bool := (store rec).isSome

/-- Loop variables of the scan in `send_missing_records`: `range_start` and the
entries of `miss.ranges` written so far. -/
structure ScanState where
  range_start : Int
  ranges : List RecordRange
deriving DecidableEq, Repr

/-- Body of the `for` loop of `send_missing_records` at index `rec`. -/
def scan_step (store : RecordStore) (st : ScanState) (rec : Int) : ScanState :=
  if store.has rec = false then
    if st.range_start = -1 then { st with range_start := rec } else st
  else if st.range_start ≠ -1 then
    { range_start := -1, ranges := st.ranges ++ [⟨st.range_start, rec - 1⟩] }
  else st

/-- The `for (int rec = blast_start; rec <= blast_end; rec++)` loop with `n`
iterations left. -/
def scan_loop (store : RecordStore) : Nat → Int → ScanState → ScanState
  | 0, _, st => st
  | n + 1, rec, st => scan_loop store n (rec + 1) (scan_step store st rec)

/-- The ranges `send_missing_records` has written to `miss.ranges` when it reaches
`sendto`: the scan, then the closing `if (range_start != -1)`. -/
def missing_ranges (store : RecordStore) (blast_start blast_end : Int) : List RecordRange :=
  let st := scan_loop store (blast_end + 1 - blast_start).toNat blast_start ⟨-1, []⟩
  if st.range_start ≠ -1 then st.ranges ++ [⟨st.range_start, blast_end⟩] else st.ranges

/-- The packet that `send_missing_records(blast_start, blast_end)` builds. -/
def send_missing_records (store : RecordStore) (blast_start blast_end : Int) :
    MissingRecordsPacket :=
  let ranges := missing_ranges store blast_start blast_end
  { num_ranges := ranges.length, ranges := ranges }

/-- Index `i` lies in one of the ranges of `l`. -/
def covered (l : List RecordRange) (i : Int) : Prop :=
  ∃ a ∈ l, a.start ≤ i ∧ i ≤ a.end_

/-- Invariant of the scan over `[s, rec)` with loop variables `range_start = r`
and ranges `l`: the limit of the closed part is `r` when a run is open, else `rec`. -/
structure ScanInv (store : RecordStore) (s rec r : Int) (l : List RecordRange) : Prop where
  start_ok : r = -1 ∨ (s ≤ r ∧ r < rec)
  open_absent : r ≠ -1 → ∀ i, r ≤ i → i < rec → store.has i = false
  open_left : r ≠ -1 → r = s ∨ store.has (r - 1) = true
  closed_left : r = -1 → rec = s ∨ store.has (rec - 1) = true
  sorted : l.Pairwise (fun a b => a.end_ + 1 < b.start)
  bounds : ∀ a ∈ l, s ≤ a.start ∧ a.start ≤ a.end_ ∧ a.end_ + 1 < (if r = -1 then rec else r)
  maximal : ∀ a ∈ l, (a.start = s ∨ store.has (a.start - 1) = true) ∧
    store.has (a.end_ + 1) = true
  cover : ∀ i, covered l i ↔
    (s ≤ i ∧ i < (if r = -1 then rec else r) ∧ store.has i = false)

/-! ## Example inputs -/

/-- A `DATA_PACKET` as `send_blast_records` builds it: the header fields it sets
(`segments` lists the initialised entries of `segments[]`) and the payload bytes that
follow the header. -/
structure DataPacket where
  num_segments : Int
  segments : List RecordRange
  payload : List Byte
deriving DecidableEq, Repr

/-- A datagram on the wire, by its type tag, with the fields its sender sets. -/
inductive Datagram where
  | FILE_HDR (file_size record_size blast_size : Int) (filename : String)
  | FILE_HDR_ACK
  | DATA_PACKET (p : DataPacket)
  | IS_BLAST_OVER (m_start m_end : Int)
  | REC_MISS (miss : MissingRecordsPacket)
  | DISCONNECT
  | DISCONNECT_ACK
  | UNKNOWN (tag : Int)
deriving DecidableEq, Repr

/-- The `sizeof(DataPacketHeader)`: a tag, `num_segments` and four `RecordRange`s of
4-byte `int`s. -/
def DATA_HEADER_SIZE : Int := 40

/-- The record count `(file_size + record_size - 1) / record_size`, computed alike by
the sender (`phase2_data_transfer`, `send_blast_records`) and the receiver
(`phase1_connection_setup`). -/
def total_records (file_size record_size : Int) : Int :=
  Int.tdiv (file_size + record_size - 1) record_size

/-! ## sender.cpp -/

/-- The `std::ifstream file` of the sender: the bytes of the file and whether
`failbit` is set. -/
structure IfStream where
  content : List Byte
  fail : Bool
deriving DecidableEq, Repr

/-- The stream right after `std::ifstream file(filename, std::ios::binary)`. -/
def IfStream.opened (content : List Byte) : IfStream := ⟨content, false⟩

/-- The calls `file.seekg(pos); file.read(buffer.data(), n); file.gcount()`: the bytes
read and the stream afterwards. On a stream with `failbit` set both calls do nothing
and `gcount()` is 0; a seek to a negative position fails; a read whose `gcount()`
differs from `n` sets `eofbit | failbit`. -/
def IfStream.seekg_read (file : IfStream) (pos n : Int) : List Byte × IfStream :=
  if file.fail = true ∨ pos < 0 then ([], { file with fail := true })
  else
    let got := (file.content.drop pos.toNat).take n.toNat
    (got, { file with fail := decide ((got.length : Int) ≠ n) })

/-- The members of `FileSender` that the protocol uses; `file_size` is what
`get_file_size` returned in the constructor. -/
structure FileSender where
  filename : String
  record_size : Int
  blast_size : Int
  file_size : Int
deriving DecidableEq, Repr

/-- What the sender has done on its socket: the datagrams passed to `sendto`, oldest
first (`packets_sent` is their number), and the number of `recvfrom` calls made. -/
structure SenderIO where
  sent : List Datagram
  recv_count : Nat
deriving DecidableEq, Repr

/-- The outcome of the `k`-th `recvfrom` of the sender: `none` when it returns
`n <= 0` (timeout), else the datagram received. -/
abbrev RecvOracle := Nat → Option Datagram

/-- The header `hdr` that `phase1_connection_setup` fills in. -/
def FileSender.file_hdr (s : FileSender) : Datagram :=
  .FILE_HDR s.file_size s.record_size s.blast_size s.filename

/-- The `for (int retry = 0; retry < MAX_RETRIES; retry++)` loop of
`FileSender::phase1_connection_setup` with `n` retries left. -/
def FileSender.phase1_loop (s : FileSender) (recv : RecvOracle) :
    Nat → SenderIO → Bool × SenderIO
  | 0, io => (false, io)
  | n + 1, io =>
    let io1 : SenderIO := { sent := io.sent ++ [s.file_hdr], recv_count := io.recv_count + 1 }
    match recv io.recv_count with
    | some .FILE_HDR_ACK => (true, io1)
    | _ => FileSender.phase1_loop s recv n io1

/-- The function `FileSender::phase1_connection_setup`. -/
def FileSender.phase1_connection_setup (s : FileSender) (recv : RecvOracle) (io : SenderIO) :
    Bool × SenderIO :=
  s.phase1_loop recv MAX_RETRIES io

/-- The loop of `send_blast_records` from `rec` on, with at most `n` packets left to
build (each packet advances `rec` by at least one, so `end_ + 1 - start` suffice). -/
def FileSender.send_blast_loop (s : FileSender) (end_ : Int) :
    Nat → Int → IfStream → List DataPacket × IfStream
  | 0, _, file => ([], file)
  | n + 1, rec, file =>
    if rec ≤ end_ then
      let records_in_packet := min MAX_RECORDS_PER_PACKET (end_ - rec + 1)
      let bytes_to_read :=
        if rec + records_in_packet > total_records s.file_size s.record_size then
          s.file_size - rec * s.record_size
        else records_in_packet * s.record_size
      let r := file.seekg_read (rec * s.record_size) bytes_to_read
      let pkt : DataPacket :=
        { num_segments := 1, segments := [⟨rec, rec + records_in_packet - 1⟩], payload := r.1 }
      let rest := FileSender.send_blast_loop s end_ n (rec + records_in_packet) r.2
      (pkt :: rest.1, rest.2)
    else ([], file)

/-- The function `FileSender::send_blast_records(file, start, end)`: the DATA_PACKETs
sent, in order, and the stream afterwards; `none` when the process aborts
(`record_size = 0` divides by zero, a negative `record_size` makes the buffer
constructor throw). -/
def FileSender.send_blast_records (s : FileSender) (file : IfStream) (start end_ : Int) :
    Option (List DataPacket × IfStream) :=
  if s.record_size ≤ 0 then none
  else some (s.send_blast_loop end_ (end_ + 1 - start).toNat start file)

/-- The loop `for (int i = 0; i < miss.num_ranges; i++) send_blast_records(...)` over
the ranges of a REC_MISS. -/
def FileSender.retransmit (s : FileSender) :
    List RecordRange → IfStream → Option (List DataPacket × IfStream)
  | [], file => some ([], file)
  | r :: rest, file =>
    match s.send_blast_records file r.start r.end_ with
    | none => none
    | some (pkts, file1) =>
      match FileSender.retransmit s rest file1 with
      | none => none
      | some (pkts2, file2) => some (pkts ++ pkts2, file2)

/-- The ranges `miss.ranges[0 .. num_ranges)` that the sender reads from a received
REC_MISS. -/
def MissingRecordsPacket.reported (miss : MissingRecordsPacket) : List RecordRange :=
  miss.ranges.take miss.num_ranges.toNat

/-- What one pass of the `while (true)` body of `handle_blast_retransmissions` does
after its `recvfrom` returned `outcome`: the DATA_PACKETs retransmitted, the stream,
and whether the loop is left by `break`. -/
def FileSender.on_reply (s : FileSender) (file : IfStream) (outcome : Option Datagram) :
    Option (List DataPacket × IfStream × Bool) :=
  match outcome with
  | some (.REC_MISS miss) =>
    if miss.num_ranges = 0 then some ([], file, true)
    else
      match s.retransmit miss.reported file with
      | none => none
      | some (pkts, file1) => some (pkts, file1, false)
  | _ => some ([], file, false)

/-- The function `FileSender::handle_blast_retransmissions(file, start, end)`: each pass
sends the query, takes the next `recvfrom` outcome and reacts to it. `none` when the
fuel runs out before the loop is left, or the process aborts. -/
def FileSender.handle_blast_retransmissions (s : FileSender) (recv : RecvOracle)
    (start end_ : Int) : Nat → IfStream → SenderIO → Option (IfStream × SenderIO)
  | 0, _, _ => none
  | fuel + 1, file, io =>
    match s.on_reply file (recv io.recv_count) with
    | none => none
    | some (pkts, file1, done) =>
      let io1 : SenderIO :=
        { sent := io.sent ++ [.IS_BLAST_OVER start end_] ++ pkts.map .DATA_PACKET,
          recv_count := io.recv_count + 1 }
      if done then some (file1, io1)
      else FileSender.handle_blast_retransmissions s recv start end_ fuel file1 io1

/-- The pair `(blast_start, blast_end)` that the body of the loop in
`phase2_data_transfer` computes for `total_records = T`, `blast_size = B` and the
given `current_record`: `blast_start = current_record` and
`blast_end = std::min(current_record + blast_size - 1, (int)total_records - 1)`. -/
def next_blast (T B current_record : Int) : RecordRange :=
  { start := current_record, end_ := min (current_record + B - 1) (T - 1) }

/-- The `while (current_record < total_records)` loop of
`FileSender::phase2_data_transfer`. `none` when the fuel runs out or the process
aborts. -/
def FileSender.blast_loop (s : FileSender) (recv : RecvOracle) :
    Nat → Int → IfStream → SenderIO → Option (IfStream × SenderIO)
  | 0, current_record, file, io =>
    if current_record < total_records s.file_size s.record_size then none else some (file, io)
  | fuel + 1, current_record, file, io =>
    if current_record < total_records s.file_size s.record_size then
      let blast :=
        next_blast (total_records s.file_size s.record_size) s.blast_size current_record
      match s.send_blast_records file blast.start blast.end_ with
      | none => none
      | some (pkts, file1) =>
        let io1 : SenderIO := { io with sent := io.sent ++ pkts.map .DATA_PACKET }
        match s.handle_blast_retransmissions recv blast.start blast.end_ (fuel + 1) file1 io1 with
        | none => none
        | some (file2, io2) => FileSender.blast_loop s recv fuel (blast.end_ + 1) file2 io2
    else some (file, io)

/-- The function `FileSender::phase2_data_transfer` on a file with bytes `content`. -/
def FileSender.phase2_data_transfer (s : FileSender) (recv : RecvOracle) (content : List Byte)
    (fuel : Nat) (io : SenderIO) : Option SenderIO :=
  if s.record_size = 0 then none
  else (s.blast_loop recv fuel 0 (IfStream.opened content) io).map (fun r => r.2)

/-- The function `FileSender::phase3_disconnect`. -/
def FileSender.phase3_disconnect (io : SenderIO) : SenderIO :=
  { io with sent := io.sent ++ [.DISCONNECT] }

/-- The function `FileSender::transfer_file`. -/
def FileSender.transfer_file (s : FileSender) (recv : RecvOracle) (content : List Byte)
    (fuel : Nat) : Option SenderIO :=
  let r := s.phase1_connection_setup recv ⟨[], 0⟩
  if r.1 = false then some r.2
  else (s.phase2_data_transfer recv content fuel r.2).map FileSender.phase3_disconnect

/-- The blasts `(blast_start, blast_end)` of the loop in `phase2_data_transfer`, in
order, for `total_records = T` and `blast_size = B`, starting at `current_record`;
`none` when the loop has not ended after `fuel` iterations. -/
def blasts (T B : Int) : Nat → Int → Option (List RecordRange)
  | 0, current_record => if current_record < T then none else some []
  | fuel + 1, current_record =>
    if current_record < T then
      let blast := next_blast T B current_record
      (blasts T B fuel (blast.end_ + 1)).map (fun l => blast :: l)
    else some []

/-! ## receiver.cpp -/

/-- The receive buffer as `process_data_packet` reads it through its casts:
`hdr->num_segments`, `hdr->segments[seg]` and the bytes `data[i]` that follow the
header. The views are total: they also give what lies beyond the bytes of the last
datagram. -/
structure DataView where
  num_segments : Int
  segments : Nat → RecordRange
  data : Nat → Byte

/-- The buffer of `phase2_data_transfer` right after its construction: all zero. -/
def DataView.zero : DataView := ⟨0, fun _ => ⟨0, 0⟩, fun _ => 0⟩

/-- The buffer after `recvfrom` has copied the DATA_PACKET `p` over the earlier
contents `stale`. -/
def DataPacket.view (p : DataPacket) (stale : DataView) : DataView :=
  { num_segments := p.num_segments
    segments := fun k => p.segments.getD k (stale.segments k)
    data := fun i => p.payload.getD i (stale.data i) }

/-- The members of `FileReceiver` that the protocol uses. -/
structure FileReceiver where
  record_size : Int
  blast_size : Int
  file_size : Int
  total_records : Int
  received_records : RecordStore
  packets_received : Int
  loss_percent : ℚ

/-- A receiver right after its constructor, before any datagram. -/
def FileReceiver.init (loss_percent : ℚ) : FileReceiver :=
  { record_size := 0, blast_size := 0, file_size := 0, total_records := 0,
    received_records := RecordStore.empty, packets_received := 0,
    loss_percent := loss_percent }

/-- The function `FileReceiver::phase1_connection_setup`: `n` is what `recvfrom`
returned and `d` the datagram then in `hdr`; `dir_ok` is the result of
`ensure_directory_exists(output_dir)`. The result is the return value, the receiver
and the datagrams sent; `none` when `record_size = 0` makes the division abort. -/
def FileReceiver.phase1_connection_setup (r : FileReceiver) (n : Int) (d : Datagram)
    (dir_ok : Bool) : Option (Bool × FileReceiver × List Datagram) :=
  match d with
  | .FILE_HDR file_size record_size blast_size _ =>
    if 0 < n then
      let r1 := { r with file_size := file_size, record_size := record_size,
                         blast_size := blast_size }
      if dir_ok = false then some (false, r1, [])
      else if record_size = 0 then none
      else some (true, { r1 with total_records := UdpFileTransfer.total_records file_size record_size },
        [.FILE_HDR_ACK])
    else some (false, r, [])
  | _ => some (false, r, [])

/-- The count `bytes_to_copy` of `process_data_packet`, and `bytes_to_write` of
`phase3_write_file`, for record `rec`. -/
def FileReceiver.bytes_of_record (r : FileReceiver) (rec : Int) : Int :=
  if rec = r.total_records - 1 then r.file_size - rec * r.record_size else r.record_size

/-- Body of the inner loop of `process_data_packet` for record `rec` of a segment
starting at `start`: a zeroed vector of `record_size` bytes whose first
`bytes_to_copy` bytes are copied from `data + offset`. `none` when the vector
constructor throws (negative size) or `memcpy` would write outside the vector. -/
def FileReceiver.store_record (r : FileReceiver) (data : Nat → Byte) (start rec : Int) :
    Option FileReceiver :=
  let offset := (rec - start) * r.record_size
  let bytes_to_copy := r.bytes_of_record rec
  if r.record_size < 0 ∨ bytes_to_copy < 0 ∨ r.record_size < bytes_to_copy then none
  else
    let record_data : List Byte :=
      (List.range bytes_to_copy.toNat).map (fun i => data (offset.toNat + i)) ++
        List.replicate (r.record_size - bytes_to_copy).toNat 0
    some { r with received_records := r.received_records.put rec record_data }

/-- The loop `for (int rec = start; rec <= end; rec++)` of `process_data_packet` with
`n` iterations left. -/
def FileReceiver.segment_loop (data : Nat → Byte) (start : Int) :
    Nat → Int → FileReceiver → Option FileReceiver
  | 0, _, r => some r
  | n + 1, rec, r =>
    match r.store_record data start rec with
    | none => none
    | some r1 => FileReceiver.segment_loop data start n (rec + 1) r1

/-- The loop `for (int seg = 0; seg < hdr->num_segments; seg++)` of
`process_data_packet` with `n` iterations left. -/
def FileReceiver.segments_loop (v : DataView) : Nat → Nat → FileReceiver → Option FileReceiver
  | 0, _, r => some r
  | n + 1, seg, r =>
    let start := (v.segments seg).start
    let end_ := (v.segments seg).end_
    match FileReceiver.segment_loop v.data start (end_ + 1 - start).toNat start r with
    | none => none
    | some r1 => FileReceiver.segments_loop v n (seg + 1) r1

/-- The function `FileReceiver::process_data_packet` on the buffer `v`. -/
def FileReceiver.process_data_packet (r : FileReceiver) (v : DataView) : Option FileReceiver :=
  FileReceiver.segments_loop v v.num_segments.toNat 0 r

/-- What one pass of the `while (true)` body of `FileReceiver::phase2_data_transfer`
leaves behind. -/
structure ReceiverLoop where
  receiver : FileReceiver
  buffer : DataView
  sent : List Datagram
  left : Bool

/-- The receive buffer after `recvfrom` wrote the datagram `d` over the contents `stale`:
a DATA_PACKET rewrites the packet header and the first payload bytes. The other
datagrams rewrite only the first header words, which are read again only after the next
DATA_PACKET has rewritten them, so the view is left as it is. -/
def Datagram.received_into (d : Datagram) (stale : DataView) : DataView :=
  match d with
  | .DATA_PACKET p => p.view stale
  | _ => stale

/-- One pass of the `while (true)` body of `FileReceiver::phase2_data_transfer`:
`recvfrom` returned `n` and left the datagram `d` in the buffer, and the fault
injector drew `random_value`. A datagram the injector drops has been written to the
buffer all the same. `none` when `process_data_packet` aborts. -/
def FileReceiver.phase2_step (st : ReceiverLoop) (n : Int) (random_value : ℚ) (d : Datagram) :
    Option ReceiverLoop :=
  if n ≤ 0 then some st
  else if random_value < st.receiver.loss_percent then
    some { st with buffer := d.received_into st.buffer }
  else
    match d with
    | .DATA_PACKET p =>
      let v := p.view st.buffer
      let r1 := { st.receiver with packets_received := st.receiver.packets_received + 1 }
      match r1.process_data_packet v with
      | none => none
      | some r2 => some { st with receiver := r2, buffer := v }
    | .IS_BLAST_OVER m_start m_end =>
      some { st with sent := st.sent ++
        [.REC_MISS (send_missing_records st.receiver.received_records m_start m_end)] }
    | .DISCONNECT => some { st with left := true }
    | _ => some st

/-- The function `FileReceiver::phase2_data_transfer` over the successive `recvfrom`
results `(n, random_value, d)`: the loop stops at the first pass that reaches `break`;
`left = false` in the result means it is still waiting. -/
def FileReceiver.phase2_loop : ReceiverLoop → List (Int × ℚ × Datagram) → Option ReceiverLoop
  | st, [] => some st
  | st, (n, random_value, d) :: rest =>
    match FileReceiver.phase2_step st n random_value d with
    | none => none
    | some st1 => if st1.left = true then some st1 else FileReceiver.phase2_loop st1 rest

/-- The calls `outfile.write(...)` of `phase3_write_file` from record `rec` on, with
`n` iterations left: the record index and the bytes of each call, in order. -/
def FileReceiver.write_loop (r : FileReceiver) : Nat → Int → List (Int × List Byte)
  | 0, _ => []
  | n + 1, rec =>
    match r.received_records rec with
    | some record_data =>
      (rec, record_data.take (r.bytes_of_record rec).toNat) ::
        FileReceiver.write_loop r n (rec + 1)
    | none => FileReceiver.write_loop r n (rec + 1)

/-- The `outfile.write` calls of `FileReceiver::phase3_write_file`, in order. -/
def FileReceiver.phase3_writes (r : FileReceiver) : List (Int × List Byte) :=
  r.write_loop r.total_records.toNat 0

/-- The bytes of the output file after `FileReceiver::phase3_write_file`: the written
chunks one after the other. -/
def FileReceiver.phase3_write_file (r : FileReceiver) : List Byte :=
  (r.phase3_writes.map (fun w => w.2)).flatten

/-- The byte offset in the output file at which the `k`-th `outfile.write` call starts:
the number of bytes written by the calls before it. -/
def FileReceiver.write_offset (r : FileReceiver) (k : Nat) : Nat :=
  ((r.phase3_writes.take k).map (fun w => w.2.length)).sum

/-- The function `FileReceiver::receive_file` on the first datagram `(n, d)` and the
later `recvfrom` results `inputs`: `none` when the process aborts; else the datagrams
sent and, when `phase3_write_file` was reached, the bytes of the output file. -/
def FileReceiver.receive_file (r : FileReceiver) (n : Int) (d : Datagram) (dir_ok : Bool)
    (inputs : List (Int × ℚ × Datagram)) : Option (List Datagram × Option (List Byte)) :=
  match r.phase1_connection_setup n d dir_ok with
  | none => none
  | some (false, _, sent) => some (sent, none)
  | some (true, r1, sent) =>
    match FileReceiver.phase2_loop ⟨r1, DataView.zero, [], false⟩ inputs with
    | none => none
    | some st =>
      if st.left = true then some (sent ++ st.sent, some st.receiver.phase3_write_file)
      else some (sent ++ st.sent, none)

/-- A receiver after the handshake for `file_size = 10000`, `record_size = 512`,
`blast_size = 1000`, with nothing stored yet. -/
def receiver10000 : FileReceiver :=
  { record_size := 512, blast_size := 1000, file_size := 10000,
    total_records := total_records 10000 512,
    received_records := RecordStore.empty, packets_received := 0, loss_percent := 0 }

/-- The datagrams of a session for an 8-byte file in records of 4 bytes in which only
record 1 reaches the receiver before DISCONNECT. -/
def inputsRecord1Only : List (Int × ℚ × Datagram) :=
  [(44, 0, .DATA_PACKET ⟨1, [⟨1, 1⟩], [5, 6, 7, 8]⟩), (4, 0, .DISCONNECT)]

/-- The receiver at FINALIZE of that session: `file_size = 8`, `record_size = 4`, two
records, of which record 0 is absent. -/
def receiverRecord1Only : FileReceiver :=
  { record_size := 4, blast_size := 1000, file_size := 8, total_records := 2,
    received_records := RecordStore.empty.put 1 [5, 6, 7, 8],
    packets_received := 1, loss_percent := 0 }

/-! ## Auxiliary definitions for the proofs -/

/-- The value of an `int` expression whose exact result is `x` on a machine where
32-bit signed arithmetic wraps around. -/
def wrap32 (x : Int) : Int := (x + 2147483648) % 4294967296 - 2147483648

/-- The receiver `r` with its store replaced by `store`. -/
def FileReceiver.withStore (r : FileReceiver) (store : RecordStore) : FileReceiver :=
  { r with received_records := store }

/-- A sequence of assignments `received_records[rec] = record_data` applied in order. -/
def RecordStore.putAll (store : RecordStore) : List (Int × List Byte) → RecordStore
  | [] => store
  | w :: rest => RecordStore.putAll (store.put w.1 w.2) rest

/-- The sender configured for a file with bytes `content`. -/
def FileSender.for_file (filename : String) (content : List Byte)
    (record_size blast_size : Int) : FileSender :=
  { filename := filename, record_size := record_size, blast_size := blast_size,
    file_size := content.length }

/-- The receive outcomes of a sender on a network that loses nothing, talking to a
receiver that has everything: the first `recvfrom` gives FILE_HDR_ACK, every later one
a REC_MISS with zero ranges. -/
def recvLossless : RecvOracle :=
  fun k => if k = 0 then some .FILE_HDR_ACK else some (.REC_MISS ⟨0, []⟩)

/-- The number of bytes `recvfrom` returns for a datagram (LP64 layout of the structs
of `udp_file_transfer.h`; a DATA_PACKET is its 40-byte header plus the payload). -/
def Datagram.size : Datagram → Int
  | .FILE_HDR _ _ _ _ => 280
  | .FILE_HDR_ACK => 280
  | .DATA_PACKET p => DATA_HEADER_SIZE + p.payload.length
  | .IS_BLAST_OVER _ _ => 12
  | .REC_MISS _ => 808
  | .DISCONNECT => 4
  | .DISCONNECT_ACK => 4
  | .UNKNOWN _ => 4

/-- A three-byte file, sent in records of 2 bytes and blasts of 1 record. -/
def content3 : List Byte := [10, 20, 30]

/-- Receive outcomes in which the third `recvfrom` gives FILE_HDR_ACK and the others
time out. -/
def recvAckThird : RecvOracle := fun k => if k = 2 then some .FILE_HDR_ACK else none

/-- Where the sender is in `phase2_data_transfer`. -/
inductive SenderPc where
  /-- At the test of `while (current_record < total_records)`. -/
  | loop_head
  /-- In `handle_blast_retransmissions(file, start, end)`, before `sendto`. -/
  | query_send (start end_ : Int)
  /-- In `handle_blast_retransmissions(file, start, end)`, in `recvfrom`. -/
  | query_wait (start end_ : Int)
  /-- Just after the `break` of `handle_blast_retransmissions(file, start, end)`;
  `answered` is the range of the query that the accepted REC_MISS was a reply to. -/
  | blast_done (start end_ : Int) (answered : RecordRange)
  /-- After the loop and `phase3_disconnect`. -/
  | transfer_done
deriving DecidableEq, Repr

/-- The sender in `phase2_data_transfer`, the receiver in its `phase2_data_transfer`,
and the datagrams in flight. A datagram in flight to the sender is paired with the
range of the IS_BLAST_OVER it answers, and `queried` lists the ranges of the queries
sent: both are bookkeeping of the model, not data on the wire. -/
structure World where
  sender : FileSender
  file : IfStream
  current_record : Int
  pc : SenderPc
  receiver : ReceiverLoop
  to_receiver : List Datagram
  to_sender : List (RecordRange × Datagram)
  queried : List RecordRange

/-- The start of `FileSender::phase2_data_transfer` for a file with bytes `content`,
the receiver `r` being in its receive loop. -/
def World.init (s : FileSender) (content : List Byte) (r : FileReceiver) : World :=
  { sender := s, file := IfStream.opened content, current_record := 0, pc := .loop_head,
    receiver := ⟨r, DataView.zero, [], false⟩, to_receiver := [], to_sender := [],
    queried := [] }

/-- One step of an execution. -/
inductive Action where
  /-- The sender executes up to its next `recvfrom`: a pass of the blast loop up to the
  query loop, the `sendto` of a query, or the step to the next blast. -/
  | sender
  /-- The sender's `recvfrom` returns: with `none` it times out, with `some k` it
  returns the `k`-th datagram in flight to the sender. -/
  | sender_recv (k : Option Nat)
  /-- The receiver's `recvfrom` returns the `k`-th datagram in flight to it, and the
  fault injector draws `random_value`. -/
  | deliver (k : Nat) (random_value : ℚ)
  /-- The network loses the `k`-th datagram in flight to the receiver. -/
  | drop_to_receiver (k : Nat)
  /-- The network loses the `k`-th datagram in flight to the sender. -/
  | drop_to_sender (k : Nat)
deriving DecidableEq, Repr

/-- The range a query asks about (for other datagrams, a dummy). -/
def query_range : Datagram → RecordRange
  | .IS_BLAST_OVER m_start m_end => ⟨m_start, m_end⟩
  | _ => ⟨0, 0⟩

/-- What the sender's `recvfrom` returns for the choice `k` of the network: a timeout
for `none`, the `i`-th datagram in flight for `some i` (no result when there is no
such datagram). -/
def World.recv_outcome (w : World) : Option Nat → Option (Option (RecordRange × Datagram))
  | none => some none
  | some i => (w.to_sender[i]?).map some

/-- The datagrams still in flight to the sender after that `recvfrom`. -/
def World.without_reply (w : World) : Option Nat → List (RecordRange × Datagram)
  | none => w.to_sender
  | some i => w.to_sender.eraseIdx i

/-- The effect of an action; `none` when the action is not possible in `w` or the
process aborts. -/
def World.step (w : World) : Action → Option World
  | .sender =>
    match w.pc with
    | .loop_head =>
      if w.current_record < total_records w.sender.file_size w.sender.record_size then
        let blast := next_blast (total_records w.sender.file_size w.sender.record_size)
          w.sender.blast_size w.current_record
        match w.sender.send_blast_records w.file blast.start blast.end_ with
        | none => none
        | some (pkts, file1) =>
          some { w with file := file1, to_receiver := w.to_receiver ++ pkts.map .DATA_PACKET,
                        pc := .query_send blast.start blast.end_ }
      else some { w with to_receiver := w.to_receiver ++ [.DISCONNECT], pc := .transfer_done }
    | .query_send start end_ =>
      some { w with to_receiver := w.to_receiver ++ [.IS_BLAST_OVER start end_],
                    queried := w.queried ++ [⟨start, end_⟩], pc := .query_wait start end_ }
    | .blast_done _ end_ _ => some { w with current_record := end_ + 1, pc := .loop_head }
    | _ => none
  | .sender_recv k =>
    match w.pc with
    | .query_wait start end_ =>
      match w.recv_outcome k with
      | none => none
      | some outcome =>
        match w.sender.on_reply w.file (outcome.map (fun x => x.2)) with
        | none => none
        | some (pkts, file1, done) =>
          some { w with
            file := file1
            to_receiver := w.to_receiver ++ pkts.map .DATA_PACKET
            to_sender := w.without_reply k
            pc := if done = true then
                .blast_done start end_ ((outcome.map (fun x => x.1)).getD ⟨0, 0⟩)
              else .query_send start end_ }
    | _ => none
  | .deliver k random_value =>
    match w.to_receiver[k]? with
    | none => none
    | some d =>
      if w.receiver.left = true then none
      else
        match FileReceiver.phase2_step w.receiver d.size random_value d with
        | none => none
        | some st1 =>
          some { w with
            receiver := st1
            to_receiver := w.to_receiver.eraseIdx k
            to_sender := w.to_sender ++
              (st1.sent.drop w.receiver.sent.length).map (fun reply => (query_range d, reply)) }
  | .drop_to_receiver k =>
    if k < w.to_receiver.length then some { w with to_receiver := w.to_receiver.eraseIdx k }
    else none
  | .drop_to_sender k =>
    if k < w.to_sender.length then some { w with to_sender := w.to_sender.eraseIdx k }
    else none

/-- An execution: the actions applied in order. -/
def World.run (w : World) : List Action → Option World
  | [] => some w
  | a :: rest =>
    match w.step a with
    | none => none
    | some w1 => World.run w1 rest

/-- The receiver after the handshake for the three-byte file `content3` in records of
2 bytes and blasts of 1 record: two records, nothing stored. -/
def receiver3 : FileReceiver :=
  { record_size := 2, blast_size := 1, file_size := 3, total_records := 2,
    received_records := RecordStore.empty, packets_received := 0, loss_percent := 0 }

/-- An execution for `content3`: the reply to the first query of blast `[0, 0]` is
delayed, the sender times out and asks again, and both queries are answered with
zero ranges; the first reply ends blast `[0, 0]`. -/
def scheduleFirstBlast : List Action :=
  [.sender, .sender, .deliver 0 0, .deliver 0 0, .sender_recv none, .sender, .deliver 0 0,
   .sender_recv (some 0)]

/-- The execution `scheduleFirstBlast` continued: the DATA_PACKET of blast `[1, 1]` is
lost, and the sender's `recvfrom` after its query for `[1, 1]` returns the second
reply for blast `[0, 0]`. -/
def scheduleStaleReply : List Action :=
  scheduleFirstBlast ++ [.sender, .sender, .drop_to_receiver 0, .sender, .sender_recv (some 0)]

/-- Invariant of the executions from `World.init`. -/
structure WorldInv (w : World) : Prop where
  cur_nonneg : 0 ≤ w.current_record
  pc_blast : ∀ s e, (w.pc = .query_send s e ∨ w.pc = .query_wait s e ∨
      ∃ t, w.pc = .blast_done s e t) →
    w.current_record < total_records w.sender.file_size w.sender.record_size ∧
    (⟨s, e⟩ : RecordRange) = next_blast (total_records w.sender.file_size w.sender.record_size)
      w.sender.blast_size w.current_record
  queried_blasts : ∀ t ∈ w.queried, 0 ≤ t.start ∧ t.start ≤ w.current_record ∧
    t = next_blast (total_records w.sender.file_size w.sender.record_size)
      w.sender.blast_size t.start
  queries_in_flight : ∀ d ∈ w.to_receiver, ∀ a b, d = .IS_BLAST_OVER a b →
    (⟨a, b⟩ : RecordRange) ∈ w.queried
  replies_in_flight : ∀ x ∈ w.to_sender, ∀ m, x.2 = .REC_MISS m → m.num_ranges = 0 →
    x.1 ∈ w.queried ∧
    ∀ i, x.1.start ≤ i → i ≤ x.1.end_ → w.receiver.receiver.received_records.has i = true
  done_ok : ∀ s e t, w.pc = .blast_done s e t → t ∈ w.queried ∧
    ∀ i, t.start ≤ i → i ≤ t.end_ → w.receiver.receiver.received_records.has i = true

/-- A receiver after the handshake for a file of 402 bytes in records of 2 bytes: 201
records, nothing stored. -/
def receiver201 : FileReceiver :=
  { record_size := 2, blast_size := 1000, file_size := 402, total_records := 201,
    received_records := RecordStore.empty, packets_received := 0, loss_percent := 0 }

/-- The datagrams of a session in which the receiver gets one single-record
DATA_PACKET for each odd record 1, 3, ..., 199 and then `IS_BLAST_OVER(0, 200)`. -/
def inputsOdd : List (Int × ℚ × Datagram) :=
  (List.range 100).map (fun k =>
    (42, 0, .DATA_PACKET ⟨1, [⟨2 * (k : Int) + 1, 2 * (k : Int) + 1⟩], [7, 7]⟩)) ++
  [(12, 0, .IS_BLAST_OVER 0 200)]

/-- The `num_ranges` of the REC_MISS packets a receiver has sent, in order (-1 for any
other datagram). -/
def num_ranges_sent (st : ReceiverLoop) : List Int :=
  st.sent.map (fun d => match d with
    | .REC_MISS miss => miss.num_ranges
    | _ => -1)

/-- The range of an IS_BLAST_OVER, `none` for any other datagram. -/
def query_of : Datagram → Option RecordRange
  | .IS_BLAST_OVER m_start m_end => some ⟨m_start, m_end⟩
  | _ => none

/-! ## Further inputs and measures for the proofs -/

/-- The receiver `receiver3` started with `loss_percent = 50`. -/
def receiverLossy : FileReceiver :=
  { record_size := 2, blast_size := 1, file_size := 3, total_records := 2,
    received_records := RecordStore.empty, packets_received := 0, loss_percent := 50 }

/-- A receiver after the handshake for `file_size = 4`, `record_size = 2`, with nothing
stored yet. -/
def receiver4 : FileReceiver :=
  { record_size := 2, blast_size := 1000, file_size := 4, total_records := 2,
    received_records := RecordStore.empty, packets_received := 0, loss_percent := 0 }

/-- A DATA_PACKET with two segments, `[0, 0]` and `[1, 1]`, whose payload is the bytes
of record 0 followed by the bytes of record 1. -/
def packetTwoSegments : DataPacket :=
  { num_segments := 2, segments := [⟨0, 0⟩, ⟨1, 1⟩], payload := [1, 2, 3, 4] }

/-- The segments of a list of DATA_PACKETs, in order. -/
def segments_of (pkts : List DataPacket) : List RecordRange :=
  (pkts.map (fun p => p.segments)).flatten

/-- A file of 35 bytes `0, 1, ..., 34`. -/
def content35 : List Byte := (List.range 35).map (fun i => (i : Byte))

/-- A file of 10000 bytes. -/
def content10000 : List Byte := List.replicate 10000 1

/-- The sender of scenario B: `content10000` in records of 512 bytes, blasts of 1000
records. -/
def sender10000 : FileSender := FileSender.for_file "f" content10000 512 1000

/-- A store that holds every record of `[0, 19]` except 5, 6 and 7 (the gap scan looks
only at which indices are present, so the entries carry no bytes here). -/
def storeScenarioB : RecordStore :=
  fun i => if 0 ≤ i ∧ i ≤ 19 ∧ ¬ (5 ≤ i ∧ i ≤ 7) then some [] else none

/-- The sender of `content35` in records of 2 bytes (18 records, the last of 1 byte). -/
def sender35 : FileSender := FileSender.for_file "f" content35 2 1000

/-- Receive outcomes of the sender in a session where the receiver misses the first
DATA_PACKET: FILE_HDR_ACK, then a REC_MISS reporting `[0, 15]`, then REC_MISSes with
zero ranges. -/
def recvLossFirst : RecvOracle :=
  fun k => if k = 0 then some .FILE_HDR_ACK
    else if k = 1 then some (.REC_MISS ⟨1, [⟨0, 15⟩]⟩)
    else some (.REC_MISS ⟨0, []⟩)

/-- The `recvfrom` results of a receiver to which the datagrams `ds` are delivered in
order, each whole, the fault injector drawing the values `qs` in turn. -/
def delivered_with (ds : List Datagram) (qs : List ℚ) : List (Int × ℚ × Datagram) :=
  (ds.zip qs).map (fun x => (x.1.size, x.2, x.1))

/-- The datagrams that `sender35` sends with the receive outcomes `recvLossFirst`. -/
def sentLossFirst : List Datagram :=
  [.FILE_HDR 35 2 1000 "f", .DATA_PACKET ⟨1, [⟨0, 15⟩], content35.take 32⟩,
    .DATA_PACKET ⟨1, [⟨16, 17⟩], content35.drop 32⟩, .IS_BLAST_OVER 0 17,
    .DATA_PACKET ⟨1, [⟨0, 15⟩], []⟩, .IS_BLAST_OVER 0 17, .DISCONNECT]

/-! # Theorems -/

/-! ## Theorems: the gap scan -/

theorem covered_append (l₁ l₂ : List RecordRange) (i : Int) :
    covered (l₁ ++ l₂) i ↔ covered l₁ i ∨ covered l₂ i := by
  unfold covered
  constructor
  · rintro ⟨a, ha, h⟩
    rcases List.mem_append.mp ha with h1 | h2
    · exact Or.inl ⟨a, h1, h⟩
    · exact Or.inr ⟨a, h2, h⟩
  · rintro (⟨a, ha, h⟩ | ⟨a, ha, h⟩)
    · exact ⟨a, List.mem_append.mpr (Or.inl ha), h⟩
    · exact ⟨a, List.mem_append.mpr (Or.inr ha), h⟩

theorem covered_singleton (a : RecordRange) (i : Int) :
    covered [a] i ↔ a.start ≤ i ∧ i ≤ a.end_ := by
  simp [covered]

theorem covered_nil (i : Int) : ¬ covered [] i := by
  simp [covered]

theorem scanInv_init (store : RecordStore) (s : Int) : ScanInv store s s (-1) [] where
  start_ok := Or.inl rfl
  open_absent := fun h => absurd rfl h
  open_left := fun h => absurd rfl h
  closed_left := fun _ => Or.inl rfl
  sorted := List.Pairwise.nil
  bounds := fun a ha => by simp at ha
  maximal := fun a ha => by simp at ha
  cover := fun i => by
    constructor
    · intro h; exact absurd h (covered_nil i)
    · rintro ⟨h1, h2, _⟩
      simp at h2
      omega

theorem scanInv_step (store : RecordStore) (s rec r : Int) (l : List RecordRange)
    (hne : rec ≠ -1) (hrec : s ≤ rec) (h : ScanInv store s rec r l) :
    ScanInv store s (rec + 1) (scan_step store ⟨r, l⟩ rec).range_start
      (scan_step store ⟨r, l⟩ rec).ranges := by
  obtain ⟨h1, h2, h3, h4, h5, h6, h7, h8⟩ := h
  by_cases hp : store.has rec = false
  · by_cases ho : r = -1
    · -- an absent index opens a run
      have e : scan_step store ⟨r, l⟩ rec = ⟨rec, l⟩ := by simp [scan_step, hp, ho]
      rw [e]
      show ScanInv store s (rec + 1) rec l
      refine ⟨Or.inr ⟨hrec, by omega⟩, ?_, ?_, ?_, h5, ?_, h7, ?_⟩
      · intro _ i hi1 hi2
        have : i = rec := by omega
        rw [this]; exact hp
      · intro _
        rcases h4 ho with h | h
        · exact Or.inl h
        · exact Or.inr h
      · intro h; exact absurd h hne
      · intro a ha
        have := h6 a ha
        simp only [ho, if_true] at this
        simp only [hne, if_false]
        exact this
      · intro i
        rw [h8 i]
        simp only [ho, if_true, hne, if_false]
    · -- an absent index extends the open run
      have e : scan_step store ⟨r, l⟩ rec = ⟨r, l⟩ := by simp [scan_step, hp, ho]
      rw [e]
      show ScanInv store s (rec + 1) r l
      rcases h1 with h1 | h1
      · exact absurd h1 ho
      refine ⟨Or.inr ⟨h1.1, by omega⟩, ?_, h3, ?_, h5, ?_, h7, ?_⟩
      · intro _ i hi1 hi2
        by_cases hi : i = rec
        · rw [hi]; exact hp
        · exact h2 ho i hi1 (by omega)
      · intro h; exact absurd h ho
      · intro a ha
        have := h6 a ha
        simp only [ho, if_false] at this ⊢
        exact this
      · intro i
        rw [h8 i]
        simp only [ho, if_false]
  · have hp1 : store.has rec = true := by simpa using hp
    by_cases ho : r = -1
    · -- a present index with no open run
      have e : scan_step store ⟨r, l⟩ rec = ⟨r, l⟩ := by simp [scan_step, hp1, ho]
      rw [e]
      show ScanInv store s (rec + 1) r l
      refine ⟨Or.inl ho, ?_, ?_, ?_, h5, ?_, h7, ?_⟩
      · intro h; exact absurd ho h
      · intro h; exact absurd ho h
      · intro _; right; simpa using hp1
      · intro a ha
        have := h6 a ha
        simp only [ho, if_true] at this ⊢
        omega
      · intro i
        rw [h8 i]
        simp only [ho, if_true]
        constructor
        · rintro ⟨a, b, c⟩; exact ⟨a, by omega, c⟩
        · rintro ⟨a, b, c⟩
          refine ⟨a, ?_, c⟩
          by_contra hlt
          have : i = rec := by omega
          rw [this, hp1] at c
          exact absurd c (by simp)
    · -- a present index closes the open run
      have e : scan_step store ⟨r, l⟩ rec = ⟨-1, l ++ [⟨r, rec - 1⟩]⟩ := by
        simp [scan_step, hp1, ho]
      rw [e]
      show ScanInv store s (rec + 1) (-1) (l ++ [⟨r, rec - 1⟩])
      rcases h1 with h1 | h1
      · exact absurd h1 ho
      refine ⟨Or.inl rfl, ?_, ?_, ?_, ?_, ?_, ?_, ?_⟩
      · intro h; exact absurd rfl h
      · intro h; exact absurd rfl h
      · intro _; right; simpa using hp1
      · rw [List.pairwise_append]
        refine ⟨h5, List.pairwise_singleton _ _, ?_⟩
        intro a ha b hb
        have hb' : b = ⟨r, rec - 1⟩ := by simpa using hb
        have := h6 a ha
        simp only [ho, if_false] at this
        rw [hb']
        exact this.2.2
      · intro a ha
        rcases List.mem_append.mp ha with ha | ha
        · have := h6 a ha
          simp only [ho, if_false] at this
          simp only [if_true]
          omega
        · have ha' : a = ⟨r, rec - 1⟩ := by simpa using ha
          rw [ha']
          simp only [if_true]
          omega
      · intro a ha
        rcases List.mem_append.mp ha with ha | ha
        · exact h7 a ha
        · have ha' : a = ⟨r, rec - 1⟩ := by simpa using ha
          rw [ha']
          refine ⟨h3 ho, ?_⟩
          simpa using hp1
      · intro i
        rw [covered_append, h8 i, covered_singleton]
        simp only [ho, if_false, if_true]
        constructor
        · rintro (⟨a, b, c⟩ | ⟨a, b⟩)
          · exact ⟨a, by omega, c⟩
          · exact ⟨by omega, by omega, h2 ho i a (by omega)⟩
        · rintro ⟨a, b, c⟩
          by_cases hi : i < r
          · exact Or.inl ⟨a, hi, c⟩
          · right
            refine ⟨by omega, ?_⟩
            by_contra hlt
            have : i = rec := by omega
            rw [this, hp1] at c
            exact absurd c (by simp)

theorem scanInv_loop (store : RecordStore) (s e : Int) (hs : 0 ≤ s ∨ e < -1) :
    ∀ (n : Nat) (rec : Int) (st : ScanState), s ≤ rec → rec + n ≤ e + 1 →
      ScanInv store s rec st.range_start st.ranges →
      ScanInv store s (rec + n) (scan_loop store n rec st).range_start
        (scan_loop store n rec st).ranges := by
  intro n
  induction n with
  | zero => intro rec st _ _ h; simpa [scan_loop] using h
  | succ n ih =>
    intro rec st hrec hn h
    have hn1 : rec + ((n + 1 : Nat) : Int) = rec + 1 + (n : Int) := by push_cast; ring
    have := ih (rec + 1) (scan_step store st rec) (by omega) (by omega)
      (scanInv_step store s rec st.range_start st.ranges (by omega) hrec h)
    simp only [scan_loop]
    have e : rec + ((n + 1 : Nat) : Int) = rec + 1 + (n : Int) := by push_cast; ring
    rw [e]
    exact this

theorem scanInv_final (store : RecordStore) (s e : Int) (hs : 0 ≤ s ∨ e < -1)
    (hse : s ≤ e + 1) :
    ScanInv store s (e + 1)
      (scan_loop store (e + 1 - s).toNat s ⟨-1, []⟩).range_start
      (scan_loop store (e + 1 - s).toNat s ⟨-1, []⟩).ranges := by
  have e1 : s + ((e + 1 - s).toNat : Int) = e + 1 := by
    rw [Int.toNat_of_nonneg (by omega)]; ring
  have h := scanInv_loop store s e hs (e + 1 - s).toNat s ⟨-1, []⟩ (le_refl s) (by omega)
    (scanInv_init store s)
  rw [e1] at h
  exact h

theorem spec_empty_iff (store : RecordStore) (s e : Int) (l : List RecordRange)
    (hb : ∀ a ∈ l, s ≤ a.start ∧ a.start ≤ a.end_ ∧ a.end_ ≤ e)
    (hc : ∀ i, covered l i ↔ (s ≤ i ∧ i ≤ e ∧ store.has i = false)) :
    l = [] ↔ ∀ i, s ≤ i → i ≤ e → store.has i = true := by
  constructor
  · intro hl i h1 h2
    by_contra hn
    have : covered l i := (hc i).mpr ⟨h1, h2, by simpa using hn⟩
    rw [hl] at this
    exact covered_nil i this
  · intro hall
    cases l with
    | nil => rfl
    | cons a t =>
      exfalso
      have hb' := hb a (List.mem_cons_self a t)
      have : covered (a :: t) a.start := ⟨a, List.mem_cons_self a t, le_refl _, hb'.2.1⟩
      have h := (hc a.start).mp this
      rw [hall a.start h.1 h.2.1] at h
      exact absurd h.2.2 (by simp)

theorem missing_ranges_spec (store : RecordStore) (s e : Int) (hs : 0 ≤ s ∨ e < -1)
    (hse : s ≤ e) :
    (missing_ranges store s e).Pairwise (fun a b => a.end_ + 1 < b.start) ∧
    (∀ a ∈ missing_ranges store s e, s ≤ a.start ∧ a.start ≤ a.end_ ∧ a.end_ ≤ e) ∧
    (∀ a ∈ missing_ranges store s e, (a.start = s ∨ store.has (a.start - 1) = true) ∧
      (a.end_ = e ∨ store.has (a.end_ + 1) = true)) ∧
    (∀ i, covered (missing_ranges store s e) i ↔ (s ≤ i ∧ i ≤ e ∧ store.has i = false)) ∧
    (missing_ranges store s e = [] ↔ ∀ i, s ≤ i → i ≤ e → store.has i = true) := by
  have h := scanInv_final store s e hs (by omega)
  obtain ⟨h1, h2, h3, h4, h5, h6, h7, h8⟩ := h
  unfold missing_ranges
  generalize scan_loop store (e + 1 - s).toNat s ⟨-1, []⟩ = st at *
  obtain ⟨r, l⟩ := st
  dsimp only at h1 h2 h3 h4 h5 h6 h7 h8 ⊢
  by_cases ho : r = -1
  · simp only [ho, ne_eq, not_true_eq_false, if_false]
    simp only [ho, if_true] at h6 h8
    have hb : ∀ a ∈ l, s ≤ a.start ∧ a.start ≤ a.end_ ∧ a.end_ ≤ e := by
      intro a ha
      have := h6 a ha
      omega
    have hc : ∀ i, covered l i ↔ (s ≤ i ∧ i ≤ e ∧ store.has i = false) := by
      intro i
      rw [h8 i]
      constructor
      · rintro ⟨a, b, c⟩; exact ⟨a, by omega, c⟩
      · rintro ⟨a, b, c⟩; exact ⟨a, by omega, c⟩
    refine ⟨h5, hb, ?_, hc, spec_empty_iff store s e l hb hc⟩
    intro a ha
    exact ⟨(h7 a ha).1, Or.inr (h7 a ha).2⟩
  · simp only [ne_eq, ho, not_false_eq_true, if_true]
    simp only [ho, if_false] at h6 h8
    rcases h1 with h1 | h1
    · exact absurd h1 ho
    have hb : ∀ a ∈ l ++ [⟨r, e⟩], s ≤ a.start ∧ a.start ≤ a.end_ ∧ a.end_ ≤ e := by
      intro a ha
      rcases List.mem_append.mp ha with ha | ha
      · have := h6 a ha
        omega
      · have ha' : a = ⟨r, e⟩ := by simpa using ha
        rw [ha']
        dsimp only
        omega
    have hc : ∀ i, covered (l ++ [⟨r, e⟩]) i ↔ (s ≤ i ∧ i ≤ e ∧ store.has i = false) := by
      intro i
      rw [covered_append, h8 i, covered_singleton]
      dsimp only
      constructor
      · rintro (⟨a, b, c⟩ | ⟨a, b⟩)
        · exact ⟨a, by omega, c⟩
        · exact ⟨by omega, b, h2 ho i a (by omega)⟩
      · rintro ⟨a, b, c⟩
        by_cases hi : i < r
        · exact Or.inl ⟨a, hi, c⟩
        · exact Or.inr ⟨by omega, b⟩
    refine ⟨?_, hb, ?_, hc, spec_empty_iff store s e _ hb hc⟩
    · rw [List.pairwise_append]
      refine ⟨h5, List.pairwise_singleton _ _, ?_⟩
      intro a ha b hb
      have hb' : b = ⟨r, e⟩ := by simpa using hb
      rw [hb']
      exact (h6 a ha).2.2
    · intro a ha
      rcases List.mem_append.mp ha with ha | ha
      · exact ⟨(h7 a ha).1, Or.inr (h7 a ha).2⟩
      · have ha' : a = ⟨r, e⟩ := by simpa using ha
        rw [ha']
        exact ⟨h3 ho, Or.inl rfl⟩

set_option maxRecDepth 100000 in
/-- C10 (evaluation at the failing input). A receiver in a session of 201 records that
gets the 100 single-record DATA_PACKETs of the odd records 1, 3, ..., 199 and then
`IS_BLAST_OVER(0, 200)` answers with one REC_MISS whose `num_ranges` is 101:
`send_missing_records` has written 101 ranges, one more than the capacity 100 of
`MissingRecordsPacket::ranges`. -/
theorem send_missing_records_exceeds_capacity :
    (FileReceiver.phase2_loop ⟨receiver201, DataView.zero, [], false⟩ inputsOdd).map
      num_ranges_sent = some [101] ∧
    ¬ ((101 : Int) ≤ (REC_MISS_CAPACITY : Int)) := by
  refine ⟨by decide, by decide⟩

/-! ## Theorems: blast partitioning -/

theorem total_records_bounds (fs rs : Int) (hfs : 0 ≤ fs) (hrs : 1 ≤ rs) :
    total_records fs rs * rs - rs < fs ∧ fs ≤ total_records fs rs * rs := by
  unfold total_records
  rw [Int.tdiv_eq_ediv (by omega) (by omega)]
  have h1 := Int.ediv_mul_le (fs + rs - 1) (b := rs) (by omega)
  have h2 := Int.lt_ediv_add_one_mul_self (fs + rs - 1) (b := rs) (by omega)
  rw [add_mul, one_mul] at h2
  constructor <;> omega

theorem total_records_pos (fs rs : Int) (hfs : 1 ≤ fs) (hrs : 1 ≤ rs) :
    1 ≤ total_records fs rs := by
  have h := total_records_bounds fs rs (by omega) hrs
  by_contra hn
  have : total_records fs rs * rs ≤ 0 * rs :=
    mul_le_mul_of_nonneg_right (by omega) (by omega)
  omega

theorem total_records_eq_ceil (fs rs : Int) (hfs : 0 ≤ fs) (hrs : 1 ≤ rs) :
    total_records fs rs = ⌈(fs : ℚ) / (rs : ℚ)⌉ := by
  have h := total_records_bounds fs rs hfs hrs
  have hpos : (0 : ℚ) < (rs : ℚ) := by exact_mod_cast (by omega : (0 : Int) < rs)
  symm
  rw [Int.ceil_eq_iff]
  constructor
  · rw [lt_div_iff₀ hpos]
    have : ((total_records fs rs * rs - rs : Int) : ℚ) < (fs : ℚ) := by exact_mod_cast h.1
    push_cast at this
    linarith
  · rw [div_le_iff₀ hpos]
    exact_mod_cast h.2

/-- The length of the last record, `file_size - (T - 1) * record_size`, lies in
`[1, record_size]`. -/
theorem last_record_length (fs rs : Int) (hfs : 1 ≤ fs) (hrs : 1 ≤ rs) :
    1 ≤ fs - (total_records fs rs - 1) * rs ∧ fs - (total_records fs rs - 1) * rs ≤ rs := by
  have h := total_records_bounds fs rs (by omega) hrs
  have e : (total_records fs rs - 1) * rs = total_records fs rs * rs - rs := by ring
  rw [e]
  constructor <;> omega

/-- The lengths of the records `c, c + 1, ..., T - 1` add up to
`file_size - c * record_size`. -/
theorem bytes_of_record_sum (r : FileReceiver) :
    ∀ (n : Nat) (c : Int), 0 < n → c + n = r.total_records →
      ((List.range n).map (fun i : Nat => r.bytes_of_record (c + i))).sum =
        r.file_size - c * r.record_size := by
  intro n
  induction n with
  | zero => intro c h; omega
  | succ n ih =>
    intro c _ hc
    rw [List.range_succ_eq_map, List.map_cons, List.sum_cons, List.map_map]
    by_cases hn : n = 0
    · subst hn
      have : c = r.total_records - 1 := by push_cast at hc; omega
      simp [FileReceiver.bytes_of_record, this]
    · have h := ih (c + 1) (by omega) (by push_cast at hc ⊢; omega)
      have e : ((fun i : Nat => r.bytes_of_record (c + i)) ∘ Nat.succ) =
          (fun i : Nat => r.bytes_of_record (c + 1 + i)) := by
        funext i
        simp only [Function.comp, Nat.succ_eq_add_one]
        congr 1
        push_cast
        ring
      rw [e, h]
      have hc' : ¬ (c + ((0 : Nat) : Int) = r.total_records - 1) := by
        push_cast at hc ⊢; omega
      simp only [FileReceiver.bytes_of_record, hc', if_false]
      ring

/-- A remark on the convention that `int` arithmetic is exact. In `bytes_to_write` and
`bytes_to_copy` the product `rec * record_size` is an `int` product, which leaves the
range of `int` for the last record of a file of 2 GiB or more. Where the product wraps
around, the count that is converted back to `int` is still the exact one, as long as
the exact count fits an `int` (it is at most `record_size`). -/
theorem bytes_of_last_record_wrap (file_size record_size rec : Int)
    (h1 : 0 ≤ file_size - rec * record_size)
    (h2 : file_size - rec * record_size ≤ record_size) (h3 : record_size < 2147483648) :
    wrap32 (file_size - wrap32 (rec * record_size)) = file_size - rec * record_size := by
  unfold wrap32
  omega

theorem mem_write_loop (r : FileReceiver) (rec : Int) (chunk : List Byte) :
    ∀ (n : Nat) (c : Int), (rec, chunk) ∈ r.write_loop n c ↔
      (c ≤ rec ∧ rec < c + n ∧ ∃ rd, r.received_records rec = some rd ∧
        chunk = rd.take (r.bytes_of_record rec).toNat) := by
  intro n
  induction n with
  | zero =>
    intro c
    simp only [FileReceiver.write_loop, List.not_mem_nil, false_iff]
    rintro ⟨h1, h2, _⟩
    push_cast at h2
    omega
  | succ n ih =>
    intro c
    have key : (rec, chunk) ∈ r.write_loop n (c + 1) ↔
        (c + 1 ≤ rec ∧ rec < c + ((n + 1 : Nat) : Int) ∧ ∃ rd, r.received_records rec = some rd ∧
          chunk = rd.take (r.bytes_of_record rec).toNat) := by
      rw [ih (c + 1)]
      push_cast
      constructor
      · rintro ⟨a, b, h⟩; exact ⟨a, by omega, h⟩
      · rintro ⟨a, b, h⟩; exact ⟨a, by omega, h⟩
    unfold FileReceiver.write_loop
    cases hc : r.received_records c with
    | none =>
      simp only
      rw [key]
      constructor
      · rintro ⟨a, b, h⟩; exact ⟨by omega, b, h⟩
      · rintro ⟨a, b, rd, h1, h2⟩
        refine ⟨?_, b, rd, h1, h2⟩
        by_contra hlt
        have : rec = c := by omega
        rw [this, hc] at h1
        exact absurd h1 (by simp)
    | some rd0 =>
      simp only [List.mem_cons]
      rw [key]
      constructor
      · rintro (h | ⟨a, b, h⟩)
        · have h1 : rec = c := (Prod.mk.inj h).1
          have h2 := (Prod.mk.inj h).2
          subst h1
          exact ⟨le_refl _, by push_cast; omega, rd0, hc, h2⟩
        · exact ⟨by omega, b, h⟩
      · rintro ⟨a, b, rd, h1, h2⟩
        by_cases he : rec = c
        · left
          subst he
          rw [hc] at h1
          have : rd0 = rd := by injection h1
          rw [h2, this]
        · right
          exact ⟨by omega, b, rd, h1, h2⟩

/-- C4. For every `file_size ≥ 1` and `record_size ≥ 1`, `total_records` is
`ceil(file_size / record_size)`; in a receiver holding these values the byte count of
record `rec` is `record_size` for `rec < total_records - 1` and
`file_size - (total_records - 1) * record_size` for the last record, which lies in
`[1, record_size]`; the counts of the records `0 .. total_records - 1` add up to
`file_size`; and `phase3_write_file` writes exactly that many bytes of every stored
record that has `record_size` bytes. -/
theorem record_count_and_lengths (fs rs : Int) (hfs : 1 ≤ fs) (hrs : 1 ≤ rs)
    (r : FileReceiver) (h1 : r.file_size = fs) (h2 : r.record_size = rs)
    (h3 : r.total_records = total_records fs rs) :
    total_records fs rs = ⌈(fs : ℚ) / (rs : ℚ)⌉ ∧
    (∀ rec, rec < total_records fs rs - 1 → r.bytes_of_record rec = rs) ∧
    r.bytes_of_record (total_records fs rs - 1) = fs - (total_records fs rs - 1) * rs ∧
    1 ≤ fs - (total_records fs rs - 1) * rs ∧
    fs - (total_records fs rs - 1) * rs ≤ rs ∧
    ((List.range (total_records fs rs).toNat).map
      (fun i : Nat => r.bytes_of_record i)).sum = fs ∧
    (∀ rec rd, 0 ≤ rec → rec < total_records fs rs → r.received_records rec = some rd →
      (rd.length : Int) = rs →
      (rec, rd.take (r.bytes_of_record rec).toNat) ∈ r.phase3_writes ∧
      ((rd.take (r.bytes_of_record rec).toNat).length : Int) = r.bytes_of_record rec) := by
  have hT := total_records_pos fs rs hfs hrs
  have hlast := last_record_length fs rs hfs hrs
  have hb : ∀ rec, rec < total_records fs rs - 1 → r.bytes_of_record rec = rs := by
    intro rec hrec
    have : ¬ rec = r.total_records - 1 := by rw [h3]; omega
    simp [FileReceiver.bytes_of_record, this, h2]
  have hl : r.bytes_of_record (total_records fs rs - 1) =
      fs - (total_records fs rs - 1) * rs := by
    simp [FileReceiver.bytes_of_record, h1, h2, h3]
  refine ⟨total_records_eq_ceil fs rs (by omega) hrs, hb, hl, hlast.1, hlast.2, ?_, ?_⟩
  · have h := bytes_of_record_sum r (total_records fs rs).toNat 0 (by omega)
      (by rw [h3, Int.toNat_of_nonneg (by omega)]; ring)
    simp only [zero_add, zero_mul, sub_zero] at h
    rw [h, h1]
  · intro rec rd hrec0 hrecT hrd hlen
    have hbytes : 1 ≤ r.bytes_of_record rec ∧ r.bytes_of_record rec ≤ rs := by
      by_cases hc : rec < total_records fs rs - 1
      · rw [hb rec hc]; omega
      · have : rec = total_records fs rs - 1 := by omega
        rw [this, hl]; exact hlast
    constructor
    · unfold FileReceiver.phase3_writes
      rw [mem_write_loop]
      refine ⟨hrec0, ?_, rd, hrd, rfl⟩
      rw [h3, Int.toNat_of_nonneg (by omega)]
      omega
    · rw [List.length_take]
      omega

/-- Witness for C4: `file_size = 10000`, `record_size = 512` give 20 records, and
record 19 is written with 272 bytes. -/
theorem record_count_and_lengths_witness :
    total_records 10000 512 = 20 ∧
    receiver10000.bytes_of_record 19 = 272 ∧
    receiver10000.bytes_of_record (total_records 10000 512 - 1) =
      10000 - (total_records 10000 512 - 1) * 512 :=
  ⟨by decide, by decide,
    (record_count_and_lengths 10000 512 (by decide) (by decide) receiver10000
      rfl rfl (by decide)).2.2.1⟩

/-! ## Theorems: idempotent storage -/

theorem putAll_append (store : RecordStore) (w₁ w₂ : List (Int × List Byte)) :
    store.putAll (w₁ ++ w₂) = (store.putAll w₁).putAll w₂ := by
  induction w₁ generalizing store with
  | nil => rfl
  | cons w t ih => simp only [List.cons_append, RecordStore.putAll]; exact ih _

/-- At each index a sequence of assignments either fixes the value or leaves it. -/
theorem putAll_pointwise (w : List (Int × List Byte)) (k : Int) :
    (∃ d, ∀ store : RecordStore, store.putAll w k = some d) ∨
    (∀ store : RecordStore, store.putAll w k = store k) := by
  induction w with
  | nil => right; intro store; rfl
  | cons x t ih =>
    rcases ih with ⟨d, hd⟩ | h
    · left; exact ⟨d, fun store => hd _⟩
    · by_cases hk : k = x.1
      · left
        refine ⟨x.2, fun store => ?_⟩
        simp only [RecordStore.putAll]
        rw [h]
        simp [RecordStore.put, hk]
      · right
        intro store
        simp only [RecordStore.putAll]
        rw [h]
        simp [RecordStore.put, hk]

theorem putAll_idempotent (w : List (Int × List Byte)) (store : RecordStore) :
    (store.putAll w).putAll w = store.putAll w := by
  funext k
  rcases putAll_pointwise w k with ⟨d, hd⟩ | h
  · rw [hd, hd]
  · rw [h]

/-- Assignments never remove a record. -/
theorem putAll_has (w : List (Int × List Byte)) (store : RecordStore) (k : Int)
    (h : store.has k = true) : (store.putAll w).has k = true := by
  induction w generalizing store with
  | nil => exact h
  | cons x t ih =>
    apply ih
    unfold RecordStore.has RecordStore.put
    by_cases hk : k = x.1
    · simp [hk]
    · simpa [hk, RecordStore.has] using h

theorem withStore_self (r : FileReceiver) : r.withStore r.received_records = r := rfl

theorem withStore_withStore (r : FileReceiver) (s₁ s₂ : RecordStore) :
    (r.withStore s₁).withStore s₂ = r.withStore s₂ := rfl

/-- The body of the inner loop acts on the store alone, by one assignment that does
not depend on the store. -/
theorem store_record_uniform (r : FileReceiver) (data : Nat → Byte) (start rec : Int) :
    (∃ d, ∀ store, (r.withStore store).store_record data start rec =
      some (r.withStore (store.put rec d))) ∨
    (∀ store, (r.withStore store).store_record data start rec = none) := by
  by_cases hg : r.record_size < 0 ∨ r.bytes_of_record rec < 0 ∨
      r.record_size < r.bytes_of_record rec
  · right
    intro store
    have : (r.withStore store).bytes_of_record rec = r.bytes_of_record rec := rfl
    simp only [FileReceiver.store_record, this]
    simp only [FileReceiver.withStore]
    rw [if_pos hg]
  · left
    refine ⟨(List.range (r.bytes_of_record rec).toNat).map
        (fun i => data (((rec - start) * r.record_size).toNat + i)) ++
      List.replicate (r.record_size - r.bytes_of_record rec).toNat 0, fun store => ?_⟩
    have : (r.withStore store).bytes_of_record rec = r.bytes_of_record rec := rfl
    simp only [FileReceiver.store_record, this]
    simp only [FileReceiver.withStore]
    rw [if_neg hg]

theorem segment_loop_uniform (r : FileReceiver) (data : Nat → Byte) (start : Int) :
    ∀ (n : Nat) (rec : Int),
      (∃ w, ∀ store, FileReceiver.segment_loop data start n rec (r.withStore store) =
        some (r.withStore (store.putAll w))) ∨
      (∀ store, FileReceiver.segment_loop data start n rec (r.withStore store) = none) := by
  intro n
  induction n with
  | zero => intro rec; left; exact ⟨[], fun store => rfl⟩
  | succ n ih =>
    intro rec
    rcases store_record_uniform r data start rec with ⟨d, hd⟩ | hnone
    · rcases ih (rec + 1) with ⟨w, hw⟩ | hn
      · left
        refine ⟨(rec, d) :: w, fun store => ?_⟩
        simp only [FileReceiver.segment_loop, hd, hw, RecordStore.putAll]
      · right
        intro store
        simp only [FileReceiver.segment_loop, hd, hn]
    · right
      intro store
      simp only [FileReceiver.segment_loop, hnone]

theorem segments_loop_uniform (r : FileReceiver) (v : DataView) :
    ∀ (n seg : Nat),
      (∃ w, ∀ store, FileReceiver.segments_loop v n seg (r.withStore store) =
        some (r.withStore (store.putAll w))) ∨
      (∀ store, FileReceiver.segments_loop v n seg (r.withStore store) = none) := by
  intro n
  induction n with
  | zero => intro seg; left; exact ⟨[], fun store => rfl⟩
  | succ n ih =>
    intro seg
    rcases segment_loop_uniform r v.data (v.segments seg).start
        ((v.segments seg).end_ + 1 - (v.segments seg).start).toNat (v.segments seg).start with
      ⟨w1, h1⟩ | hnone
    · rcases ih (seg + 1) with ⟨w2, h2⟩ | hn
      · left
        refine ⟨w1 ++ w2, fun store => ?_⟩
        simp only [FileReceiver.segments_loop, h1, h2, putAll_append]
      · right
        intro store
        simp only [FileReceiver.segments_loop, h1, hn]
    · right
      intro store
      simp only [FileReceiver.segments_loop, hnone]

/-- `process_data_packet` acts on the store alone, by a sequence of assignments that
the packet and the session values determine. -/
theorem process_data_packet_uniform (r : FileReceiver) (v : DataView) :
    (∃ w, ∀ store, (r.withStore store).process_data_packet v =
      some (r.withStore (store.putAll w))) ∨
    (∀ store, (r.withStore store).process_data_packet v = none) :=
  segments_loop_uniform r v v.num_segments.toNat 0

/-- C7. For every receiver state and every DATA_PACKET that `process_data_packet`
processes (yielding `r1`), processing the same packet again succeeds and leaves the
receiver, hence `received_records`, exactly as after the first time, and
`send_missing_records` gives the same result for every query range. -/
theorem process_data_packet_idempotent (r r1 : FileReceiver) (v : DataView)
    (h : r.process_data_packet v = some r1) :
    ∃ r2, r1.process_data_packet v = some r2 ∧
      r2.received_records = r1.received_records ∧ r2 = r1 ∧
      ∀ s e, send_missing_records r2.received_records s e =
        send_missing_records r1.received_records s e := by
  rcases process_data_packet_uniform r v with ⟨w, hw⟩ | hnone
  · have h1 := hw r.received_records
    rw [withStore_self, h] at h1
    have e1 : r1 = r.withStore (r.received_records.putAll w) := by injection h1
    have h2 := hw (r.received_records.putAll w)
    rw [putAll_idempotent, ← e1] at h2
    exact ⟨r1, h2, rfl, rfl, fun _ _ => rfl⟩
  · have := hnone r.received_records
    rw [withStore_self, h] at this
    exact absurd this (by simp)

/-- Witness for C7: a receiver for an 8-byte file in 4-byte records processes the
DATA_PACKET carrying record 1 twice. -/
theorem process_data_packet_idempotent_witness :
    ∃ r1, receiverRecord1Only.process_data_packet
        (DataPacket.view ⟨1, [⟨1, 1⟩], [5, 6, 7, 8]⟩ DataView.zero) = some r1 ∧
      r1.received_records 1 = some [5, 6, 7, 8] ∧
      ∃ r2, r1.process_data_packet
        (DataPacket.view ⟨1, [⟨1, 1⟩], [5, 6, 7, 8]⟩ DataView.zero) = some r2 ∧ r2 = r1 := by
  refine ⟨_, rfl, by decide, ?_⟩
  obtain ⟨r2, h1, _, h2, _⟩ := process_data_packet_idempotent receiverRecord1Only _
    (DataPacket.view ⟨1, [⟨1, 1⟩], [5, 6, 7, 8]⟩ DataView.zero) rfl
  exact ⟨r2, h1, h2⟩

/-! ## Theorems: the final write -/

/-- C6 (evaluation at the failing input). In a session for an 8-byte file in 4-byte
records in which only record 1 arrives before DISCONNECT, `phase3_write_file` makes a
single `outfile.write` call, for record 1, at byte offset 0 of the output and not at
offset `1 * record_size = 4`; the output file is 4 bytes long. -/
theorem phase3_write_file_shifts_offsets :
    (FileReceiver.init 0).receive_file 280 (.FILE_HDR 8 4 1000 "f") true inputsRecord1Only =
      some ([.FILE_HDR_ACK], some [5, 6, 7, 8]) ∧
    receiverRecord1Only.phase3_writes = [(1, [5, 6, 7, 8])] ∧
    receiverRecord1Only.write_offset 0 = 0 ∧
    ¬ ((receiverRecord1Only.write_offset 0 : Int) = 1 * receiverRecord1Only.record_size) ∧
    receiverRecord1Only.phase3_write_file = [5, 6, 7, 8] := by
  refine ⟨by decide, by decide, by decide, by decide, by decide⟩

/-! ## Theorems: the receiver's header wait -/

theorem receive_file_of_setup (r r1 : FileReceiver) (n : Int) (d : Datagram) (dir_ok : Bool)
    (sent : List Datagram) (inputs : List (Int × ℚ × Datagram))
    (h : r.phase1_connection_setup n d dir_ok = some (true, r1, sent)) :
    r.receive_file n d dir_ok inputs =
      (FileReceiver.phase2_loop ⟨r1, DataView.zero, [], false⟩ inputs).map
        (fun st => (sent ++ st.sent,
          if st.left = true then some st.receiver.phase3_write_file else none)) := by
  unfold FileReceiver.receive_file
  rw [h]
  dsimp only
  cases FileReceiver.phase2_loop ⟨r1, DataView.zero, [], false⟩ inputs with
  | none => rfl
  | some st => by_cases hl : st.left = true <;> simp [hl]

/-- C8 (counterexample). A receiver whose first datagram is a DISCONNECT and whose
second is a FILE_HDR does not wait for the FILE_HDR: `phase1_connection_setup` returns
false on the first datagram and `receive_file` ends, having sent no FILE_HDR_ACK and
never reaching the RECEIVING loop. -/
theorem receiver_header_wait_counterexample :
    ((FileReceiver.init 0).phase1_connection_setup 4 .DISCONNECT true).map (fun x => x.1) =
      some false ∧
    (FileReceiver.init 0).receive_file 4 .DISCONNECT true
      [(280, 0, .FILE_HDR 8 4 1000 "f")] = some ([], none) := by
  refine ⟨by decide, by decide⟩

/-- C8 (amended). `phase1_connection_setup` reads exactly one datagram. If it is a
FILE_HDR (with `n > 0`, a usable output directory and `record_size ≠ 0`) the receiver
takes over its values, replies with FILE_HDR_ACK and `receive_file` goes on to the
RECEIVING loop, whatever follows; if it is any other datagram,
`phase1_connection_setup` returns false, nothing is sent and `receive_file` ends
without reading any later datagram, a later FILE_HDR included. -/
theorem receiver_header_wait (r : FileReceiver) (n : Int) (d : Datagram)
    (inputs : List (Int × ℚ × Datagram)) :
    (∀ fs rs bs name, d = .FILE_HDR fs rs bs name → 0 < n → rs ≠ 0 →
      ∃ r1, r.phase1_connection_setup n d true = some (true, r1, [.FILE_HDR_ACK]) ∧
        r1.file_size = fs ∧ r1.record_size = rs ∧ r1.blast_size = bs ∧
        r1.total_records = total_records fs rs ∧
        r1.received_records = r.received_records ∧
        r.receive_file n d true inputs =
          (FileReceiver.phase2_loop ⟨r1, DataView.zero, [], false⟩ inputs).map
            (fun st => (Datagram.FILE_HDR_ACK :: st.sent,
              if st.left = true then some st.receiver.phase3_write_file else none))) ∧
    ((∀ fs rs bs name, d ≠ .FILE_HDR fs rs bs name) → ∀ dir_ok,
      r.phase1_connection_setup n d dir_ok = some (false, r, []) ∧
      r.receive_file n d dir_ok inputs = some ([], none)) := by
  constructor
  · intro fs rs bs name hd hn hrs
    subst hd
    have h1 : r.phase1_connection_setup n (.FILE_HDR fs rs bs name) true =
        some (true, { r with file_size := fs, record_size := rs, blast_size := bs,
                             total_records := total_records fs rs }, [.FILE_HDR_ACK]) := by
      simp [FileReceiver.phase1_connection_setup, hn, hrs]
    refine ⟨_, h1, rfl, rfl, rfl, rfl, rfl, ?_⟩
    rw [receive_file_of_setup r _ n _ true _ inputs h1]
    rfl
  · intro hd dir_ok
    cases d with
    | FILE_HDR fs rs bs name => exact absurd rfl (hd fs rs bs name)
    | _ => exact ⟨rfl, rfl⟩

/-- Witness for C8 (amended): a receiver whose first datagram is the FILE_HDR of an
8-byte file acknowledges it. -/
theorem receiver_header_wait_witness :
    ∃ r1, (FileReceiver.init 0).phase1_connection_setup 280 (.FILE_HDR 8 4 1000 "f") true =
      some (true, r1, [.FILE_HDR_ACK]) ∧ r1.total_records = 2 := by
  obtain ⟨r1, h1, _, _, _, h2, _⟩ :=
    (receiver_header_wait (FileReceiver.init 0) 280 (.FILE_HDR 8 4 1000 "f") []).1
      8 4 1000 "f" rfl (by decide) (by decide)
  exact ⟨r1, h1, by rw [h2]; decide⟩

/-! ## Theorems: the sender's handshake -/

/-- The retry loop started with `n` retries left: it sends `k ≤ n` FILE_HDRs and makes
as many `recvfrom` calls; it returns true exactly when the `k`-th of them, and none
before, gave FILE_HDR_ACK, and false exactly when none of `n` did. -/
theorem phase1_loop_spec (s : FileSender) (recv : RecvOracle) :
    ∀ (n : Nat) (io : SenderIO), ∃ k, k ≤ n ∧
      (s.phase1_loop recv n io).2.sent = io.sent ++ List.replicate k s.file_hdr ∧
      (s.phase1_loop recv n io).2.recv_count = io.recv_count + k ∧
      ((s.phase1_loop recv n io).1 = true →
        ∃ i, k = i + 1 ∧ recv (io.recv_count + i) = some .FILE_HDR_ACK ∧
          ∀ j < i, recv (io.recv_count + j) ≠ some .FILE_HDR_ACK) ∧
      ((s.phase1_loop recv n io).1 = false →
        k = n ∧ ∀ j < n, recv (io.recv_count + j) ≠ some .FILE_HDR_ACK) := by
  intro n
  induction n with
  | zero =>
    intro io
    refine ⟨0, le_refl 0, by simp [FileSender.phase1_loop], by simp [FileSender.phase1_loop],
      by simp [FileSender.phase1_loop], fun _ => ⟨rfl, fun j hj => by omega⟩⟩
  | succ n ih =>
    intro io
    by_cases hack : recv io.recv_count = some .FILE_HDR_ACK
    · have e : s.phase1_loop recv (n + 1) io =
          (true, { sent := io.sent ++ [s.file_hdr], recv_count := io.recv_count + 1 }) := by
        simp only [FileSender.phase1_loop, hack]
      rw [e]
      refine ⟨1, by omega, by simp, rfl, fun _ => ⟨0, rfl, hack, fun j hj => by omega⟩,
        fun h => by simp at h⟩
    · have e : s.phase1_loop recv (n + 1) io = s.phase1_loop recv n
          { sent := io.sent ++ [s.file_hdr], recv_count := io.recv_count + 1 } := by
        cases hr : recv io.recv_count with
        | none => simp only [FileSender.phase1_loop, hr]
        | some d =>
          cases d <;> first
            | exact absurd hr hack
            | simp only [FileSender.phase1_loop, hr]
      rw [e]
      obtain ⟨k, hk, h1, h2, h3, h4⟩ :=
        ih { sent := io.sent ++ [s.file_hdr], recv_count := io.recv_count + 1 }
      refine ⟨k + 1, by omega, ?_, ?_, ?_, ?_⟩
      · rw [h1, List.replicate_succ, List.append_assoc]; rfl
      · rw [h2]; dsimp only; omega
      · intro ht
        obtain ⟨i, hi1, hi2, hi3⟩ := h3 ht
        dsimp only at hi2 hi3
        refine ⟨i + 1, by omega, ?_, ?_⟩
        · rw [← hi2]; congr 1; omega
        · intro j hj
          cases j with
          | zero => simpa using hack
          | succ j =>
            have := hi3 j (by omega)
            rw [show io.recv_count + (j + 1) = io.recv_count + 1 + j by omega]
            exact this
      · intro hf
        obtain ⟨hk', hall⟩ := h4 hf
        dsimp only at hall
        refine ⟨by omega, ?_⟩
        intro j hj
        cases j with
        | zero => simpa using hack
        | succ j =>
          have := hall j (by omega)
          rw [show io.recv_count + (j + 1) = io.recv_count + 1 + j by omega]
          exact this

/-- C9. For every sequence `recv` of receive outcomes, `phase1_connection_setup` sends
only FILE_HDRs, at most `MAX_RETRIES = 5` of them; it returns true if and only if one
of the first 5 outcomes is a FILE_HDR_ACK, and then it has stopped at the first one
(after `i + 1` sends and receives when the first FILE_HDR_ACK is outcome `i`); when it
returns false, `transfer_file` ends having sent exactly the 5 FILE_HDRs: no
DATA_PACKET, no IS_BLAST_OVER and no DISCONNECT. -/
theorem bounded_handshake (s : FileSender) (recv : RecvOracle) (content : List Byte)
    (fuel : Nat) :
    (s.phase1_connection_setup recv ⟨[], 0⟩).2.sent.length ≤ 5 ∧
    (∀ d ∈ (s.phase1_connection_setup recv ⟨[], 0⟩).2.sent, d = s.file_hdr) ∧
    ((s.phase1_connection_setup recv ⟨[], 0⟩).1 = true ↔
      ∃ i < 5, recv i = some .FILE_HDR_ACK) ∧
    (∀ i < 5, recv i = some .FILE_HDR_ACK → (∀ j < i, recv j ≠ some .FILE_HDR_ACK) →
      (s.phase1_connection_setup recv ⟨[], 0⟩).1 = true ∧
      (s.phase1_connection_setup recv ⟨[], 0⟩).2.sent = List.replicate (i + 1) s.file_hdr ∧
      (s.phase1_connection_setup recv ⟨[], 0⟩).2.recv_count = i + 1) ∧
    ((s.phase1_connection_setup recv ⟨[], 0⟩).1 = false →
      s.transfer_file recv content fuel = some ⟨List.replicate 5 s.file_hdr, 5⟩ ∧
      ∀ io, s.transfer_file recv content fuel = some io → ∀ d ∈ io.sent,
        (∀ p, d ≠ .DATA_PACKET p) ∧ (∀ a b, d ≠ .IS_BLAST_OVER a b) ∧ d ≠ .DISCONNECT) := by
  obtain ⟨k, hk, h1, h2, h3, h4⟩ := phase1_loop_spec s recv MAX_RETRIES ⟨[], 0⟩
  have hM : MAX_RETRIES = 5 := rfl
  rw [hM] at hk h4
  change (s.phase1_connection_setup recv ⟨[], 0⟩).2.sent = _ at h1
  change (s.phase1_connection_setup recv ⟨[], 0⟩).2.recv_count = _ at h2
  change (s.phase1_connection_setup recv ⟨[], 0⟩).1 = true → _ at h3
  change (s.phase1_connection_setup recv ⟨[], 0⟩).1 = false → _ at h4
  simp only [List.nil_append, Nat.zero_add] at h1 h2 h3 h4
  have hiff : (s.phase1_connection_setup recv ⟨[], 0⟩).1 = true ↔
      ∃ i < 5, recv i = some .FILE_HDR_ACK := by
    constructor
    · intro ht
      obtain ⟨i, hi1, hi2, _⟩ := h3 ht
      exact ⟨i, by omega, hi2⟩
    · rintro ⟨i, hi, hack⟩
      by_contra hn
      have hf : (s.phase1_connection_setup recv ⟨[], 0⟩).1 = false := by simpa using hn
      exact (h4 hf).2 i hi hack
  refine ⟨by rw [h1, List.length_replicate]; exact hk, ?_, hiff, ?_, ?_⟩
  · intro d hd
    rw [h1] at hd
    exact List.eq_of_mem_replicate hd
  · intro i hi hack hfirst
    have ht := hiff.mpr ⟨i, hi, hack⟩
    obtain ⟨i', hi1, hi2, hi3⟩ := h3 ht
    have : i' = i := by
      rcases Nat.lt_trichotomy i' i with h | h | h
      · exact absurd hi2 (hfirst i' h)
      · exact h
      · exact absurd hack (hi3 i h)
    subst this
    exact ⟨ht, by rw [h1, hi1], by rw [h2, hi1]⟩
  · intro hf
    obtain ⟨hk5, _⟩ := h4 hf
    have e : s.transfer_file recv content fuel = some ⟨List.replicate 5 s.file_hdr, 5⟩ := by
      simp only [FileSender.transfer_file, hf, if_true]
      congr 1
      have hsent := h1
      have hcnt := h2
      rw [hk5] at hsent hcnt
      cases hio : (s.phase1_connection_setup recv ⟨[], 0⟩).2 with
      | mk sent rc =>
        rw [hio] at hsent hcnt
        dsimp only at hsent hcnt
        rw [hsent, hcnt]
    refine ⟨e, ?_⟩
    intro io hio d hd
    rw [e] at hio
    have : io = ⟨List.replicate 5 s.file_hdr, 5⟩ := by injection hio with h; exact h.symm
    rw [this] at hd
    have hd' : d = s.file_hdr := List.eq_of_mem_replicate hd
    rw [hd']
    refine ⟨fun p h => ?_, fun a b h => ?_, fun h => ?_⟩ <;>
      simp [FileSender.file_hdr] at h

/-- Witness for C9: with a FILE_HDR_ACK as third receive outcome the handshake stops
after 3 FILE_HDRs and returns true. -/
theorem bounded_handshake_witness :
    ((FileSender.for_file "f" content3 2 1).phase1_connection_setup recvAckThird ⟨[], 0⟩).1 =
      true ∧
    ((FileSender.for_file "f" content3 2 1).phase1_connection_setup recvAckThird ⟨[], 0⟩).2.sent =
      List.replicate 3 (FileSender.for_file "f" content3 2 1).file_hdr :=
  ⟨((bounded_handshake (FileSender.for_file "f" content3 2 1) recvAckThird content3 0).2.2.2.1
      2 (by decide) rfl (by decide)).1,
   ((bounded_handshake (FileSender.for_file "f" content3 2 1) recvAckThird content3 0).2.2.2.1
      2 (by decide) rfl (by decide)).2.1⟩

/-! ## Theorems: round trip without loss -/

theorem send_blast_loop_done (s : FileSender) (end_ : Int) (n : Nat) (rec : Int)
    (file : IfStream) (h : end_ < rec) : s.send_blast_loop end_ n rec file = ([], file) := by
  cases n with
  | zero => rfl
  | succ n =>
    have : ¬ rec ≤ end_ := by omega
    simp only [FileSender.send_blast_loop, this, if_false]

/-- The iteration bound of `send_blast_records` is never what ends its loop: with
`end + 1 - rec` passes allowed the loop runs until `rec > end`, and more passes change
nothing. -/
theorem send_blast_loop_fuel (s : FileSender) (end_ : Int) (m : Nat) :
    ∀ (n : Nat) (rec : Int) (file : IfStream), (end_ + 1 - rec).toNat ≤ n →
      s.send_blast_loop end_ (n + m) rec file = s.send_blast_loop end_ n rec file := by
  intro n
  induction n with
  | zero =>
    intro rec file h
    rw [send_blast_loop_done s end_ (0 + m) rec file (by omega),
      send_blast_loop_done s end_ 0 rec file (by omega)]
  | succ n ih =>
    intro rec file h
    by_cases hre : rec ≤ end_
    · have hk1 : (1 : Int) ≤ min MAX_RECORDS_PER_PACKET (end_ - rec + 1) :=
        le_min (by decide) (by omega)
      have e : n + 1 + m = (n + m) + 1 := by omega
      rw [e]
      simp only [FileSender.send_blast_loop, hre, if_true]
      rw [ih _ _ (by omega)]
    · rw [send_blast_loop_done s end_ (n + 1 + m) rec file (by omega),
        send_blast_loop_done s end_ (n + 1) rec file (by omega)]

/-- The receive loop over two batches of datagrams, when it does not stop in the
first. -/
theorem phase2_loop_append (l₁ l₂ : List (Int × ℚ × Datagram)) :
    ∀ (st st1 : ReceiverLoop), st.left = false → FileReceiver.phase2_loop st l₁ = some st1 →
      st1.left = false →
      FileReceiver.phase2_loop st (l₁ ++ l₂) = FileReceiver.phase2_loop st1 l₂ := by
  induction l₁ with
  | nil =>
    intro st st1 _ h _
    simp only [FileReceiver.phase2_loop] at h
    injection h with h
    rw [List.nil_append, h]
  | cons x t ih =>
    intro st st1 hl h hl1
    obtain ⟨n, q, d⟩ := x
    simp only [List.cons_append, FileReceiver.phase2_loop] at h ⊢
    cases hstep : FileReceiver.phase2_step st n q d with
    | none => rw [hstep] at h; exact absurd h (by simp)
    | some st2 =>
      rw [hstep] at h
      dsimp only at h ⊢
      by_cases hl2 : st2.left = true
      · rw [if_pos hl2] at h
        injection h with h
        rw [h] at hl2
        rw [hl2] at hl1
        exact absurd hl1 (by simp)
      · rw [if_neg hl2] at h ⊢
        exact ih st2 st1 (by simpa using hl2) h hl1

/-- The query loop of the sender when the next receive outcome is a REC_MISS with zero
ranges: one query, no retransmission. -/
theorem handle_blast_retransmissions_complete (s : FileSender) (recv : RecvOracle)
    (start end_ : Int) (fuel : Nat) (file : IfStream) (io : SenderIO)
    (h : recv io.recv_count = some (.REC_MISS ⟨0, []⟩)) :
    s.handle_blast_retransmissions recv start end_ (fuel + 1) file io =
      some (file, ⟨io.sent ++ [.IS_BLAST_OVER start end_], io.recv_count + 1⟩) := by
  simp [FileSender.handle_blast_retransmissions, FileSender.on_reply, h]

theorem next_blast_bounds (T B c : Int) (hB : 1 ≤ B) (hc : c < T) :
    (next_blast T B c).start = c ∧ c ≤ (next_blast T B c).end_ ∧
    (next_blast T B c).end_ ≤ T - 1 := by
  refine ⟨rfl, le_min (by omega) (by omega), min_le_right _ _⟩

/-- One pass of the blast loop when the query is answered at once with zero ranges:
the packets of the blast, one IS_BLAST_OVER, and on to the next blast. -/
theorem blast_loop_succ_answered (s : FileSender) (hrs : 1 ≤ s.record_size)
    (recv : RecvOracle) (fuel : Nat) (c : Int) (file : IfStream) (io : SenderIO)
    (hcT : c < total_records s.file_size s.record_size)
    (h : recv io.recv_count = some (.REC_MISS ⟨0, []⟩)) :
    s.blast_loop recv (fuel + 1) c file io =
      s.blast_loop recv fuel
        ((next_blast (total_records s.file_size s.record_size) s.blast_size c).end_ + 1)
        (s.send_blast_loop
          (next_blast (total_records s.file_size s.record_size) s.blast_size c).end_
          ((next_blast (total_records s.file_size s.record_size) s.blast_size c).end_ + 1
            - c).toNat c file).2
        ⟨io.sent ++ (s.send_blast_loop
            (next_blast (total_records s.file_size s.record_size) s.blast_size c).end_
            ((next_blast (total_records s.file_size s.record_size) s.blast_size c).end_ + 1
              - c).toNat c file).1.map Datagram.DATA_PACKET ++
          [.IS_BLAST_OVER c
            (next_blast (total_records s.file_size s.record_size) s.blast_size c).end_],
          io.recv_count + 1⟩ := by
  have hrs0 : ¬ s.record_size ≤ 0 := by omega
  have hb1 : (next_blast (total_records s.file_size s.record_size) s.blast_size c).start = c :=
    rfl
  simp only [FileSender.blast_loop, FileSender.send_blast_records, hcT, if_true, hrs0,
    if_false, hb1]
  have hh := handle_blast_retransmissions_complete s recv c
    (next_blast (total_records s.file_size s.record_size) s.blast_size c).end_ fuel
    (s.send_blast_loop (next_blast (total_records s.file_size s.record_size) s.blast_size c).end_
      ((next_blast (total_records s.file_size s.record_size) s.blast_size c).end_ + 1
        - c).toNat c file).2
    ⟨io.sent ++ (s.send_blast_loop
        (next_blast (total_records s.file_size s.record_size) s.blast_size c).end_
        ((next_blast (total_records s.file_size s.record_size) s.blast_size c).end_ + 1
          - c).toNat c file).1.map Datagram.DATA_PACKET, io.recv_count⟩ h
  rw [hh]

/-- `process_data_packet` never removes a record. -/
theorem process_data_packet_has (r r1 : FileReceiver) (v : DataView)
    (h : r.process_data_packet v = some r1) (i : Int)
    (hi : r.received_records.has i = true) : r1.received_records.has i = true := by
  rcases process_data_packet_uniform r v with ⟨w, hw⟩ | hnone
  · have h1 := hw r.received_records
    rw [withStore_self, h] at h1
    have e1 : r1 = r.withStore (r.received_records.putAll w) := by injection h1
    rw [e1]
    exact putAll_has w r.received_records i hi
  · have := hnone r.received_records
    rw [withStore_self, h] at this
    exact absurd this (by simp)

/-- One pass of the receive loop never removes a record, and sends nothing or, for an
IS_BLAST_OVER, the REC_MISS computed from the store, which it leaves as it is. -/
theorem phase2_step_effect (st st1 : ReceiverLoop) (n : Int) (q : ℚ) (d : Datagram)
    (h : FileReceiver.phase2_step st n q d = some st1) :
    (∀ i, st.receiver.received_records.has i = true →
      st1.receiver.received_records.has i = true) ∧
    (st1.sent = st.sent ∨ ∃ a b, d = .IS_BLAST_OVER a b ∧
      st1.sent = st.sent ++
        [.REC_MISS (send_missing_records st.receiver.received_records a b)] ∧
      st1.receiver = st.receiver) := by
  unfold FileReceiver.phase2_step at h
  by_cases hn : n ≤ 0
  · rw [if_pos hn] at h
    injection h with h
    subst h
    exact ⟨fun i hi => hi, Or.inl rfl⟩
  · rw [if_neg hn] at h
    by_cases hq : q < st.receiver.loss_percent
    · rw [if_pos hq] at h
      injection h with h
      subst h
      exact ⟨fun i hi => hi, Or.inl rfl⟩
    · rw [if_neg hq] at h
      cases d with
      | DATA_PACKET p =>
        dsimp only at h
        cases hp : FileReceiver.process_data_packet
            { st.receiver with packets_received := st.receiver.packets_received + 1 }
            (p.view st.buffer) with
        | none => rw [hp] at h; exact absurd h (by simp)
        | some r2 =>
          rw [hp] at h
          injection h with h
          subst h
          exact ⟨fun i hi => process_data_packet_has _ r2 _ hp i hi, Or.inl rfl⟩
      | IS_BLAST_OVER a b =>
        injection h with h
        subst h
        exact ⟨fun i hi => hi, Or.inr ⟨a, b, rfl, rfl, rfl⟩⟩
      | DISCONNECT =>
        injection h with h
        subst h
        exact ⟨fun i hi => hi, Or.inl rfl⟩
      | _ =>
        injection h with h
        subst h
        exact ⟨fun i hi => hi, Or.inl rfl⟩

/-- The query loop is left only on a REC_MISS with zero ranges. -/
theorem on_reply_done (s : FileSender) (file file1 : IfStream) (o : Option Datagram)
    (pkts : List DataPacket) (h : s.on_reply file o = some (pkts, file1, true)) :
    ∃ m, o = some (.REC_MISS m) ∧ m.num_ranges = 0 := by
  unfold FileSender.on_reply at h
  cases o with
  | none => simp at h
  | some d =>
    cases d with
    | REC_MISS m =>
      by_cases hm : m.num_ranges = 0
      · exact ⟨m, rfl, hm⟩
      · simp only [hm, if_false] at h
        cases hr : s.retransmit m.reported file with
        | none => rw [hr] at h; simp at h
        | some x => rw [hr] at h; simp at h
    | _ => simp at h

/-- A REC_MISS with zero ranges, computed for a query that starts at a non-negative
index, means every index of the queried range is stored. -/
theorem zero_ranges_complete (store : RecordStore) (a b : Int) (ha : 0 ≤ a)
    (h : (send_missing_records store a b).num_ranges = 0) :
    ∀ i, a ≤ i → i ≤ b → store.has i = true := by
  intro i hi1 hi2
  have hnil : missing_ranges store a b = [] := by
    have : ((missing_ranges store a b).length : Int) = 0 := h
    exact List.length_eq_zero.mp (by exact_mod_cast this)
  exact (missing_ranges_spec store a b (Or.inl ha) (by omega)).2.2.2.2.mp hnil i hi1 hi2

theorem worldInv_init (s : FileSender) (content : List Byte) (r : FileReceiver) :
    WorldInv (World.init s content r) where
  cur_nonneg := le_refl 0
  pc_blast := by
    intro s e h
    rcases h with h | h | ⟨t, h⟩ <;> simp [World.init] at h
  queried_blasts := by intro t ht; simp [World.init] at ht
  queries_in_flight := by intro d hd; simp [World.init] at hd
  replies_in_flight := by intro x hx; simp [World.init] at hx
  done_ok := by intro s e t h; simp [World.init] at h

theorem worldInv_sender (w w1 : World) (hB : 1 ≤ w.sender.blast_size) (hw : WorldInv w)
    (h : w.step .sender = some w1) : WorldInv w1 ∧ w1.sender = w.sender := by
  obtain ⟨i1, i2, i3, i4, i5, i6⟩ := hw
  unfold World.step at h
  cases hpc : w.pc with
  | loop_head =>
    rw [hpc] at h
    dsimp only at h
    by_cases hc : w.current_record < total_records w.sender.file_size w.sender.record_size
    · rw [if_pos hc] at h
      cases hsend : w.sender.send_blast_records w.file
          (next_blast (total_records w.sender.file_size w.sender.record_size)
            w.sender.blast_size w.current_record).start
          (next_blast (total_records w.sender.file_size w.sender.record_size)
            w.sender.blast_size w.current_record).end_ with
      | none => rw [hsend] at h; simp at h
      | some x =>
        obtain ⟨pkts, file1⟩ := x
        rw [hsend] at h
        injection h with h
        subst h
        refine ⟨⟨i1, ?_, i3, ?_, i5, ?_⟩, rfl⟩
        · intro s e hse
          dsimp only at hse ⊢
          refine ⟨hc, ?_⟩
          rcases hse with hse | hse | ⟨t, hse⟩
          · injection hse with h1 h2
            rw [← h1, ← h2]
          · exact absurd hse (by simp)
          · exact absurd hse (by simp)
        · intro d hd a b hab
          dsimp only at hd ⊢
          rcases List.mem_append.mp hd with hd | hd
          · exact i4 d hd a b hab
          · obtain ⟨p, _, hp⟩ := List.mem_map.mp hd
            rw [hab] at hp
            exact absurd hp (by simp)
        · intro s e t hpc'
          exact absurd hpc' (by simp)
    · rw [if_neg hc] at h
      injection h with h
      subst h
      refine ⟨⟨i1, ?_, i3, ?_, i5, ?_⟩, rfl⟩
      · intro s e hse
        rcases hse with hse | hse | ⟨t, hse⟩ <;> exact absurd hse (by simp)
      · intro d hd a b hab
        dsimp only at hd ⊢
        rcases List.mem_append.mp hd with hd | hd
        · exact i4 d hd a b hab
        · rw [hab] at hd
          simp at hd
      · intro s e t hpc'
        exact absurd hpc' (by simp)
  | query_send s0 e0 =>
    rw [hpc] at h
    injection h with h
    subst h
    obtain ⟨hlt, hblast⟩ := i2 s0 e0 (Or.inl hpc)
    refine ⟨⟨i1, ?_, ?_, ?_, ?_, ?_⟩, rfl⟩
    · intro s e hse
      dsimp only at hse ⊢
      rcases hse with hse | hse | ⟨t, hse⟩
      · exact absurd hse (by simp)
      · injection hse with h1 h2
        rw [← h1, ← h2]
        exact ⟨hlt, hblast⟩
      · exact absurd hse (by simp)
    · intro t ht
      dsimp only at ht ⊢
      rcases List.mem_append.mp ht with ht | ht
      · exact i3 t ht
      · have ht' : t = ⟨s0, e0⟩ := by simpa using ht
        have hs0 : s0 = w.current_record := by
          have := congrArg RecordRange.start hblast
          exact this
        rw [ht']
        dsimp only
        refine ⟨by omega, by omega, ?_⟩
        rw [hblast, hs0]
    · intro d hd a b hab
      dsimp only at hd ⊢
      rcases List.mem_append.mp hd with hd | hd
      · exact List.mem_append.mpr (Or.inl (i4 d hd a b hab))
      · have hd' : d = .IS_BLAST_OVER s0 e0 := by simpa using hd
        rw [hd'] at hab
        injection hab with h1 h2
        rw [← h1, ← h2]
        exact List.mem_append.mpr (Or.inr (List.mem_singleton.mpr rfl))
    · intro x hx m hm hz
      obtain ⟨h1, h2⟩ := i5 x hx m hm hz
      exact ⟨List.mem_append.mpr (Or.inl h1), h2⟩
    · intro s e t hpc'
      exact absurd hpc' (by simp)
  | query_wait s0 e0 => rw [hpc] at h; simp at h
  | blast_done s0 e0 t0 =>
    rw [hpc] at h
    injection h with h
    subst h
    obtain ⟨hlt, hblast⟩ := i2 s0 e0 (Or.inr (Or.inr ⟨t0, hpc⟩))
    have he0 : e0 = min (w.current_record + w.sender.blast_size - 1)
        (total_records w.sender.file_size w.sender.record_size - 1) :=
      congrArg RecordRange.end_ hblast
    have hge : w.current_record ≤ e0 := by
      rw [he0]; exact le_min (by omega) (by omega)
    refine ⟨⟨?_, ?_, ?_, i4, i5, ?_⟩, rfl⟩
    · show 0 ≤ e0 + 1
      omega
    · intro s e hse
      rcases hse with hse | hse | ⟨t, hse⟩ <;> exact absurd hse (by simp)
    · intro t ht
      obtain ⟨h1, h2, h3⟩ := i3 t ht
      refine ⟨h1, ?_, h3⟩
      show t.start ≤ e0 + 1
      omega
    · intro s e t hpc'
      exact absurd hpc' (by simp)
  | transfer_done => rw [hpc] at h; simp at h

theorem worldInv_sender_recv (w w1 : World) (k : Option Nat) (hw : WorldInv w)
    (h : w.step (.sender_recv k) = some w1) : WorldInv w1 ∧ w1.sender = w.sender := by
  obtain ⟨i1, i2, i3, i4, i5, i6⟩ := hw
  simp only [World.step] at h
  cases hpc : w.pc with
  | query_wait s0 e0 =>
    rw [hpc] at h
    dsimp only at h
    cases hk : w.recv_outcome k with
    | none => rw [hk] at h; simp at h
    | some outcome =>
      rw [hk] at h
      dsimp only at h
      have hmem : ∀ x, outcome = some x → x ∈ w.to_sender := by
        intro x hx
        cases k with
        | none =>
          simp only [World.recv_outcome] at hk
          injection hk with hk
          rw [← hk] at hx
          exact absurd hx (by simp)
        | some i =>
          simp only [World.recv_outcome] at hk
          cases hg : w.to_sender[i]? with
          | none => rw [hg] at hk; simp at hk
          | some y =>
            rw [hg] at hk
            simp only [Option.map_some', Option.some.injEq] at hk
            rw [← hk] at hx
            have : y = x := by injection hx
            rw [← this]
            exact List.getElem?_mem hg
      cases hr : w.sender.on_reply w.file (outcome.map (fun x => x.2)) with
      | none => rw [hr] at h; simp at h
      | some y =>
        obtain ⟨pkts, file1, done⟩ := y
        rw [hr] at h
        injection h with h
        subst h
        have herase : ∀ x, x ∈ w.without_reply k → x ∈ w.to_sender := by
          intro x hx
          cases k with
          | none => exact hx
          | some i => exact List.mem_of_mem_eraseIdx hx
        obtain ⟨hlt, hblast⟩ := i2 s0 e0 (Or.inr (Or.inl hpc))
        refine ⟨⟨i1, ?_, i3, ?_, ?_, ?_⟩, rfl⟩
        · intro s e hse
          dsimp only at hse ⊢
          refine ⟨hlt, ?_⟩
          by_cases hd : done = true
          · rw [if_pos hd] at hse
            rcases hse with hse | hse | ⟨t, hse⟩
            · exact absurd hse (by simp)
            · exact absurd hse (by simp)
            · injection hse with h1 h2 _
              rw [← h1, ← h2]
              exact hblast
          · rw [if_neg hd] at hse
            rcases hse with hse | hse | ⟨t, hse⟩
            · injection hse with h1 h2
              rw [← h1, ← h2]
              exact hblast
            · exact absurd hse (by simp)
            · exact absurd hse (by simp)
        · intro d hd a b hab
          dsimp only at hd ⊢
          rcases List.mem_append.mp hd with hd | hd
          · exact i4 d hd a b hab
          · obtain ⟨p, _, hp⟩ := List.mem_map.mp hd
            rw [hab] at hp
            exact absurd hp (by simp)
        · intro x hx m hm hz
          exact i5 x (herase x hx) m hm hz
        · intro s e t hpc'
          dsimp only at hpc' ⊢
          by_cases hd : done = true
          · rw [if_pos hd] at hpc'
            injection hpc' with _ _ h3
            subst hd
            obtain ⟨m, hm1, hm2⟩ := on_reply_done w.sender w.file file1 _ pkts hr
            cases outcome with
            | none => simp at hm1
            | some x =>
              simp only [Option.map_some', Option.some.injEq] at hm1
              simp only [Option.map_some', Option.getD_some] at h3
              rw [← h3]
              exact i5 x (hmem x rfl) m hm1 hm2
          · rw [if_neg hd] at hpc'
            exact absurd hpc' (by simp)
  | loop_head => rw [hpc] at h; simp at h
  | query_send s0 e0 => rw [hpc] at h; simp at h
  | blast_done s0 e0 t0 => rw [hpc] at h; simp at h
  | transfer_done => rw [hpc] at h; simp at h

theorem worldInv_deliver (w w1 : World) (k : Nat) (q : ℚ) (hw : WorldInv w)
    (h : w.step (.deliver k q) = some w1) : WorldInv w1 ∧ w1.sender = w.sender := by
  obtain ⟨i1, i2, i3, i4, i5, i6⟩ := hw
  simp only [World.step] at h
  cases hg : w.to_receiver[k]? with
  | none => rw [hg] at h; simp at h
  | some d =>
    rw [hg] at h
    dsimp only at h
    by_cases hl : w.receiver.left = true
    · rw [if_pos hl] at h; simp at h
    · rw [if_neg hl] at h
      cases hstep : FileReceiver.phase2_step w.receiver d.size q d with
      | none => rw [hstep] at h; simp at h
      | some st1 =>
        rw [hstep] at h
        injection h with h
        subst h
        obtain ⟨hmono, hsent⟩ := phase2_step_effect w.receiver st1 _ q d hstep
        have hd : d ∈ w.to_receiver := List.getElem?_mem hg
        refine ⟨⟨i1, i2, i3, ?_, ?_, ?_⟩, rfl⟩
        · intro d' hd' a b hab
          exact i4 d' (List.mem_of_mem_eraseIdx hd') a b hab
        · intro x hx m hm hz
          dsimp only at hx ⊢
          rcases List.mem_append.mp hx with hx | hx
          · obtain ⟨h1, h2⟩ := i5 x hx m hm hz
            exact ⟨h1, fun i hi1 hi2 => hmono i (h2 i hi1 hi2)⟩
          · rcases hsent with hs | ⟨a, b, hab, hs, hrcv⟩
            · rw [hs, List.drop_length] at hx
              simp at hx
            · rw [hs, List.drop_left] at hx
              have hx' : x = (query_range d, .REC_MISS
                  (send_missing_records w.receiver.receiver.received_records a b)) := by
                simpa using hx
              have hq := i4 d hd a b hab
              obtain ⟨ha0, _, _⟩ := i3 _ hq
              rw [hx'] at hm ⊢
              dsimp only at hm ⊢
              have hm' : send_missing_records w.receiver.receiver.received_records a b = m := by
                injection hm
              rw [hab]
              refine ⟨hq, ?_⟩
              intro i hi1 hi2
              rw [hrcv]
              exact zero_ranges_complete _ a b ha0 (by rw [hm']; exact hz) i hi1 hi2
        · intro s e t hpc'
          obtain ⟨h1, h2⟩ := i6 s e t hpc'
          exact ⟨h1, fun i hi1 hi2 => hmono i (h2 i hi1 hi2)⟩

theorem worldInv_drop_to_receiver (w w1 : World) (k : Nat) (hw : WorldInv w)
    (h : w.step (.drop_to_receiver k) = some w1) : WorldInv w1 ∧ w1.sender = w.sender := by
  obtain ⟨i1, i2, i3, i4, i5, i6⟩ := hw
  simp only [World.step] at h
  by_cases hk : k < w.to_receiver.length
  · rw [if_pos hk] at h
    injection h with h
    subst h
    exact ⟨⟨i1, i2, i3, fun d hd a b hab => i4 d (List.mem_of_mem_eraseIdx hd) a b hab, i5, i6⟩,
      rfl⟩
  · rw [if_neg hk] at h; simp at h

theorem worldInv_drop_to_sender (w w1 : World) (k : Nat) (hw : WorldInv w)
    (h : w.step (.drop_to_sender k) = some w1) : WorldInv w1 ∧ w1.sender = w.sender := by
  obtain ⟨i1, i2, i3, i4, i5, i6⟩ := hw
  simp only [World.step] at h
  by_cases hk : k < w.to_sender.length
  · rw [if_pos hk] at h
    injection h with h
    subst h
    exact ⟨⟨i1, i2, i3, i4, fun x hx m hm hz => i5 x (List.mem_of_mem_eraseIdx hx) m hm hz, i6⟩,
      rfl⟩
  · rw [if_neg hk] at h; simp at h

theorem worldInv_step (w w1 : World) (a : Action) (hB : 1 ≤ w.sender.blast_size)
    (hw : WorldInv w) (h : w.step a = some w1) : WorldInv w1 ∧ w1.sender = w.sender := by
  cases a with
  | sender => exact worldInv_sender w w1 hB hw h
  | sender_recv k => exact worldInv_sender_recv w w1 k hw h
  | deliver k q => exact worldInv_deliver w w1 k q hw h
  | drop_to_receiver k => exact worldInv_drop_to_receiver w w1 k hw h
  | drop_to_sender k => exact worldInv_drop_to_sender w w1 k hw h

theorem worldInv_run (acts : List Action) :
    ∀ (w w1 : World), 1 ≤ w.sender.blast_size → WorldInv w → w.run acts = some w1 →
      WorldInv w1 ∧ w1.sender = w.sender := by
  induction acts with
  | nil =>
    intro w w1 _ hw h
    simp only [World.run] at h
    injection h with h
    subst h
    exact ⟨hw, rfl⟩
  | cons a rest ih =>
    intro w w1 hB hw h
    simp only [World.run] at h
    cases hs : w.step a with
    | none => rw [hs] at h; simp at h
    | some w2 =>
      rw [hs] at h
      obtain ⟨h1, h2⟩ := worldInv_step w w2 a hB hw hs
      obtain ⟨h3, h4⟩ := ih w2 w1 (by rw [h2]; exact hB) h1 h
      exact ⟨h3, by rw [h4, h2]⟩

/-- C5 (evaluation at the failing execution). In the execution `scheduleStaleReply` for a 2-record file sent
in blasts of 1 record, the sender times out once in blast `[0, 0]`, so that two
zero-range replies for `[0, 0]` are sent; the second one is received during the query
loop for blast `[1, 1]`, whose DATA_PACKET was lost: the sender leaves the query loop
for `[1, 1]` while record 1 is not in the receiver's store. -/
theorem sender_leaves_query_loop_counterexample :
    ((World.init (FileSender.for_file "f" content3 2 1) content3 receiver3).run
        scheduleStaleReply).map (fun w => w.pc) = some (.blast_done 1 1 ⟨0, 0⟩) ∧
    ((World.init (FileSender.for_file "f" content3 2 1) content3 receiver3).run
        scheduleStaleReply).map (fun w => w.receiver.receiver.received_records.has 1) =
      some false := by
  refine ⟨by decide, by decide⟩

/-- What every execution guarantees when the query loop is left. In every execution of
the sender's blast loop (`blast_size ≥ 1`) and the receiver's loop over a network that
drops, delays and reorders datagrams: when
the sender leaves the query loop for blast `[start, end]`, the REC_MISS with zero ranges
that it accepted answers an IS_BLAST_OVER that the sender sent for a blast `answered`
starting at or before `start`, and the receiver's store holds every index of
`answered`. So the store holds every index of `[start, end]` when the accepted reply
answers a query of the current blast, which is always so in the first blast. -/
theorem sender_leaves_query_loop (s : FileSender) (content : List Byte) (r : FileReceiver)
    (acts : List Action) (w : World) (hB : 1 ≤ s.blast_size)
    (hrun : (World.init s content r).run acts = some w)
    (start end_ : Int) (answered : RecordRange)
    (hpc : w.pc = .blast_done start end_ answered) :
    answered ∈ w.queried ∧
    0 ≤ answered.start ∧ answered.start ≤ start ∧
    answered = next_blast (total_records s.file_size s.record_size) s.blast_size
      answered.start ∧
    (⟨start, end_⟩ : RecordRange) =
      next_blast (total_records s.file_size s.record_size) s.blast_size start ∧
    (∀ i, answered.start ≤ i → i ≤ answered.end_ →
      w.receiver.receiver.received_records.has i = true) ∧
    (answered.start = start →
      ∀ i, start ≤ i → i ≤ end_ → w.receiver.receiver.received_records.has i = true) ∧
    (start = 0 →
      ∀ i, start ≤ i → i ≤ end_ → w.receiver.receiver.received_records.has i = true) := by
  obtain ⟨⟨i1, i2, i3, i4, i5, i6⟩, hsender⟩ :=
    worldInv_run acts (World.init s content r) w hB (worldInv_init s content r) hrun
  have hs : w.sender = s := hsender
  rw [hs] at i2 i3
  obtain ⟨hq, hall⟩ := i6 start end_ answered hpc
  obtain ⟨h0, h1, h2⟩ := i3 answered hq
  obtain ⟨_, hblast⟩ := i2 start end_ (Or.inr (Or.inr ⟨answered, hpc⟩))
  have hstart : start = w.current_record := congrArg RecordRange.start hblast
  have hsame : answered.start = start →
      ∀ i, start ≤ i → i ≤ end_ → w.receiver.receiver.received_records.has i = true := by
    intro he i hi1 hi2
    have : answered = ⟨start, end_⟩ := by rw [h2, he, hblast, hstart]
    rw [this] at hall
    exact hall i hi1 hi2
  refine ⟨hq, h0, by omega, h2, by rw [hblast, hstart], hall, hsame, ?_⟩
  intro hz
  exact hsame (by omega)

/-- An instance of `sender_leaves_query_loop`: in the execution `scheduleFirstBlast` the sender leaves
the query loop for blast `[0, 0]` on a reply for `[0, 0]`, and record 0 is stored. -/
theorem sender_leaves_query_loop_witness :
    ∃ w, (World.init (FileSender.for_file "f" content3 2 1) content3 receiver3).run
        scheduleFirstBlast = some w ∧ w.pc = .blast_done 0 0 ⟨0, 0⟩ ∧
      w.receiver.receiver.received_records.has 0 = true := by
  have hsome : ((World.init (FileSender.for_file "f" content3 2 1) content3 receiver3).run
      scheduleFirstBlast).map (fun w => w.pc) = some (.blast_done 0 0 ⟨0, 0⟩) := by decide
  cases hw : (World.init (FileSender.for_file "f" content3 2 1) content3 receiver3).run
      scheduleFirstBlast with
  | none => rw [hw] at hsome; simp at hsome
  | some w =>
    rw [hw] at hsome
    have hpc : w.pc = .blast_done 0 0 ⟨0, 0⟩ := by simpa using hsome
    exact ⟨w, rfl, hpc,
      (sender_leaves_query_loop (FileSender.for_file "f" content3 2 1) content3 receiver3
        scheduleFirstBlast w (by decide) hw 0 0 ⟨0, 0⟩ hpc).2.2.2.2.2.2.2 rfl 0 (le_refl 0)
        (le_refl 0)⟩

/-! ## Theorems: the blasts are the sender's queries -/

theorem filterMap_query_of_data (pkts : List DataPacket) :
    (pkts.map Datagram.DATA_PACKET).filterMap query_of = [] := by
  induction pkts with
  | nil => rfl
  | cons p t ih =>
    simp only [List.map_cons, List.filterMap_cons, query_of]
    exact ih

/-- The blasts of `blasts` are the blasts of the sender: when every query is answered
at once with zero ranges, the IS_BLAST_OVER queries that the blast loop of
`phase2_data_transfer` sends are, in order, the ranges that `blasts` lists for
`total_records` and `blast_size`. -/
theorem blast_loop_queries (s : FileSender) (hrs : 1 ≤ s.record_size)
    (hB : 1 ≤ s.blast_size) :
    ∀ (fuel : Nat) (c : Int) (file : IfStream) (io : SenderIO),
      (total_records s.file_size s.record_size - c).toNat ≤ fuel → 1 ≤ io.recv_count →
      ∃ file' ds nq l,
        s.blast_loop recvLossless fuel c file io =
          some (file', ⟨io.sent ++ ds, io.recv_count + nq⟩) ∧
        blasts (total_records s.file_size s.record_size) s.blast_size fuel c = some l ∧
        ds.filterMap query_of = l := by
  intro fuel
  induction fuel with
  | zero =>
    intro c file io hf _
    have hc : ¬ c < total_records s.file_size s.record_size := by omega
    exact ⟨file, [], 0, [], by simp [FileSender.blast_loop, hc], by simp [blasts, hc], rfl⟩
  | succ fuel ih =>
    intro c file io hf hrc
    by_cases hc : c < total_records s.file_size s.record_size
    · obtain ⟨_, hb2, _⟩ := next_blast_bounds (total_records s.file_size s.record_size)
        s.blast_size c hB hc
      have hrecv : recvLossless io.recv_count = some (.REC_MISS ⟨0, []⟩) := by
        have : io.recv_count ≠ 0 := by omega
        simp [recvLossless, this]
      obtain ⟨file', ds, nq, l, h1, h2, h3⟩ :=
        ih ((next_blast (total_records s.file_size s.record_size) s.blast_size c).end_ + 1)
          (s.send_blast_loop (next_blast (total_records s.file_size s.record_size)
            s.blast_size c).end_
            ((next_blast (total_records s.file_size s.record_size) s.blast_size c).end_ + 1
              - c).toNat c file).2
          ⟨io.sent ++ (s.send_blast_loop (next_blast (total_records s.file_size s.record_size)
              s.blast_size c).end_
              ((next_blast (total_records s.file_size s.record_size) s.blast_size c).end_ + 1
                - c).toNat c file).1.map .DATA_PACKET ++
            [.IS_BLAST_OVER c (next_blast (total_records s.file_size s.record_size)
              s.blast_size c).end_], io.recv_count + 1⟩
          (by omega) (by simp)
      refine ⟨file', (s.send_blast_loop (next_blast (total_records s.file_size s.record_size)
            s.blast_size c).end_
            ((next_blast (total_records s.file_size s.record_size) s.blast_size c).end_ + 1
              - c).toNat c file).1.map .DATA_PACKET ++
          [.IS_BLAST_OVER c (next_blast (total_records s.file_size s.record_size)
            s.blast_size c).end_] ++ ds, nq + 1,
        next_blast (total_records s.file_size s.record_size) s.blast_size c :: l, ?_, ?_, ?_⟩
      · rw [blast_loop_succ_answered s hrs recvLossless fuel c file io hc hrecv, h1]
        simp only [List.append_assoc, Nat.add_assoc, Nat.add_comm 1 nq]
      · simp only [blasts, hc, if_true, h2, Option.map_some']
      · rw [List.filterMap_append, List.filterMap_append, filterMap_query_of_data, h3]
        rfl
    · exact ⟨file, [], 0, [], by simp [FileSender.blast_loop, hc], by simp [blasts, hc], rfl⟩

/-! ## Theorems: the gap scan on negative indices -/

/-- C14 (counterexample). A receiver started with `loss_percent = 50` that receives the
DISCONNECT datagram while the fault injector draws 10 drops it: the loop is not left,
and `receive_file` does not reach `phase3_write_file`. -/
theorem disconnect_dropped_counterexample :
    ((0 : ℚ) ≤ receiverLossy.loss_percent ∧ receiverLossy.loss_percent ≤ 100) ∧
    (FileReceiver.phase2_loop ⟨receiverLossy, DataView.zero, [], false⟩
      [(4, 10, .DISCONNECT)]).map (fun st => st.left) = some false ∧
    (FileReceiver.init 50).receive_file 280 (.FILE_HDR 3 2 1 "f") true [(4, 10, .DISCONNECT)] =
      some ([.FILE_HDR_ACK], none) := by
  refine ⟨⟨by decide, by decide⟩, by decide, by decide⟩

/-- C14 (amended). When the DISCONNECT datagram is received (`n > 0`) and the draw of
the fault injector is not below `loss_percent` (as is every draw when
`loss_percent = 0`), the RECEIVING loop is left at once and `receive_file` goes on to
`phase3_write_file`; when the draw is below `loss_percent` the datagram is dropped,
the state is unchanged and the loop goes on with the next datagram. -/
theorem disconnect_leaves_loop (st : ReceiverLoop) (n : Int) (q : ℚ)
    (rest : List (Int × ℚ × Datagram)) (hn : 0 < n) :
    (st.receiver.loss_percent ≤ q →
      FileReceiver.phase2_loop st ((n, q, .DISCONNECT) :: rest) = some { st with left := true } ∧
      ∀ (r r1 : FileReceiver) (n0 : Int) (d0 : Datagram) (sent : List Datagram)
        (inputs : List (Int × ℚ × Datagram)),
        r.phase1_connection_setup n0 d0 true = some (true, r1, sent) →
        FileReceiver.phase2_loop ⟨r1, DataView.zero, [], false⟩ inputs = some st →
        st.left = false →
        r.receive_file n0 d0 true (inputs ++ (n, q, .DISCONNECT) :: rest) =
          some (sent ++ st.sent, some st.receiver.phase3_write_file)) ∧
    (q < st.receiver.loss_percent →
      FileReceiver.phase2_step st n q .DISCONNECT = some st ∧
      (st.left = false → FileReceiver.phase2_loop st ((n, q, .DISCONNECT) :: rest) =
        FileReceiver.phase2_loop st rest)) := by
  have hn' : ¬ n ≤ 0 := not_le.mpr hn
  constructor
  · intro hq
    have hq' : ¬ q < st.receiver.loss_percent := not_lt.mpr hq
    have h1 : FileReceiver.phase2_loop st ((n, q, .DISCONNECT) :: rest) =
        some { st with left := true } := by
      simp only [FileReceiver.phase2_loop, FileReceiver.phase2_step, hn', hq', if_false]
      simp
    refine ⟨h1, ?_⟩
    intro r r1 n0 d0 sent inputs hsetup hloop hleft
    rw [receive_file_of_setup r r1 n0 d0 true sent _ hsetup,
      phase2_loop_append inputs _ _ st rfl hloop hleft, h1]
    simp
  · intro hq
    have h1 : FileReceiver.phase2_step st n q .DISCONNECT = some st := by
      simp only [FileReceiver.phase2_step, hn', hq, if_false, if_true, Datagram.received_into]
    refine ⟨h1, ?_⟩
    intro hleft
    simp only [FileReceiver.phase2_loop, h1, hleft]
    simp

/-- Witness for C14 (amended): the receiver with `loss_percent = 50` leaves the loop on
a DISCONNECT received with the draw 90. -/
theorem disconnect_leaves_loop_witness :
    (FileReceiver.phase2_loop ⟨receiverLossy, DataView.zero, [], false⟩
      [(4, 90, .DISCONNECT)]).map (fun st => st.left) = some true := by
  rw [((disconnect_leaves_loop ⟨receiverLossy, DataView.zero, [], false⟩ 4 90 []
    (by decide)).1 (by decide)).1]
  rfl

/-! ## Theorems: the size of a DATA_PACKET -/

/-- C12 (evaluation at the failing input). For the DATA_PACKET with the segments
`[0, 0]` and `[1, 1]` and the payload `1 2 3 4` (record 0 then record 1, two bytes
each), `process_data_packet` stores `1 2` for record 0 and again `1 2` for record 1:
`offset = (rec - start) * record_size` starts again at 0 for the second segment, so
record 1 does not get the second slice `3 4`. -/
theorem process_data_packet_second_segment :
    receiver4.total_records = total_records receiver4.file_size receiver4.record_size ∧
    (receiver4.process_data_packet (packetTwoSegments.view DataView.zero)).map
      (fun r => (r.received_records 0, r.received_records 1)) =
        some (some [1, 2], some [1, 2]) ∧
    (packetTwoSegments.payload.drop 2).take 2 = [3, 4] := by
  refine ⟨by decide, by decide, by decide⟩

/-! ## Theorems: progress of the blast loop -/

theorem scenario_initial_send (s : FileSender) (content : List Byte)
    (hrs : s.record_size = 512) (hfs : s.file_size = 10000) (hlen : content.length = 10000) :
    s.send_blast_loop 19 20 0 (IfStream.opened content) =
      ([⟨1, [⟨0, 15⟩], content.take 8192⟩, ⟨1, [⟨16, 19⟩], content.drop 8192⟩],
        ⟨content, true⟩) := by
  have hT : total_records 10000 512 = 20 := by decide
  simp [FileSender.send_blast_loop, IfStream.seekg_read, IfStream.opened, hT, hrs, hfs,
    MAX_RECORDS_PER_PACKET, List.length_take, List.length_drop, hlen]

theorem scenario_retransmission (s : FileSender) (content : List Byte)
    (hrs : s.record_size = 512) :
    s.send_blast_loop 7 3 5 ⟨content, true⟩ = ([⟨1, [⟨5, 7⟩], []⟩], ⟨content, true⟩) := by
  simp [FileSender.send_blast_loop, IfStream.seekg_read, hrs, MAX_RECORDS_PER_PACKET]

/-- C15 (evaluation at the failing input). Scenario B: `file_size = 10000`,
`record_size = 512`, the store holds `[0, 19]` except 5..7. `send_missing_records(0, 19)`
reports the single range `[5, 7]`. The initial send of `[0, 19]` builds the packets
`[0, 15]` and `[16, 19]`; the read for `[16, 19]` asks for 2048 bytes where 1808 are
left, which sets `failbit`. The retransmission of `[5, 7]` on the same stream then
builds one DATA_PACKET for `[5, 7]` with an empty payload, not the 1536 bytes
2560..4095 of the file. -/
theorem retransmission_after_eof :
    send_missing_records storeScenarioB 0 19 = ⟨1, [⟨5, 7⟩]⟩ ∧
    ∃ pkts file1 pkts2 file2,
      sender10000.send_blast_records (IfStream.opened content10000) 0 19 = some (pkts, file1) ∧
      segments_of pkts = [⟨0, 15⟩, ⟨16, 19⟩] ∧ file1.fail = true ∧
      sender10000.retransmit (send_missing_records storeScenarioB 0 19).reported file1 =
        some (pkts2, file2) ∧
      pkts2 = [⟨1, [⟨5, 7⟩], []⟩] ∧
      ((content10000.drop 2560).take 1536).length = 1536 := by
  have hlen : content10000.length = 10000 := List.length_replicate _ _
  have hrs : sender10000.record_size = 512 := rfl
  have hfs : sender10000.file_size = 10000 := by
    show ((content10000.length : Nat) : Int) = 10000
    rw [hlen]
    rfl
  have hrep : (send_missing_records storeScenarioB 0 19).reported = [⟨5, 7⟩] := by decide
  have h1 : sender10000.send_blast_records (IfStream.opened content10000) 0 19 =
      some (sender10000.send_blast_loop 19 20 0 (IfStream.opened content10000)) := by
    simp only [FileSender.send_blast_records, hrs]
    rw [if_neg (by decide)]
    rfl
  have h2 : sender10000.send_blast_records ⟨content10000, true⟩ 5 7 =
      some (sender10000.send_blast_loop 7 3 5 ⟨content10000, true⟩) := by
    simp only [FileSender.send_blast_records, hrs]
    rw [if_neg (by decide)]
    rfl
  rw [scenario_initial_send sender10000 content10000 hrs hfs hlen] at h1
  rw [scenario_retransmission sender10000 content10000 hrs] at h2
  refine ⟨by decide, _, _, [⟨1, [⟨5, 7⟩], []⟩], ⟨content10000, true⟩, h1, rfl, rfl, ?_, rfl, ?_⟩
  · rw [hrep]
    simp only [FileSender.retransmit, h2, List.append_nil]
  · rw [List.length_take, List.length_drop, hlen]
    omega

set_option maxRecDepth 100000 in
/-- The same defect in a whole session, for the 35-byte file `0, 1, ..., 34` in records
of 2 bytes. The receiver's fault injector drops the first DATA_PACKET `[0, 15]`; the
sender has by then read the last record short, so `failbit` is set; the REC_MISS
reports `[0, 15]`; the retransmitted DATA_PACKET has no payload (40 bytes, the header
alone); the receiver fills records 0..15 from what its buffer holds, reports zero
ranges, and writes a file that differs from the input. -/
theorem retransmission_corrupts_output :
    (sender35.transfer_file recvLossFirst content35 10).map (fun io => io.sent) =
      some sentLossFirst ∧
    (FileReceiver.init 50).receive_file 280 (.FILE_HDR 35 2 1000 "f") true
        (delivered_with sentLossFirst.tail [10, 90, 90, 90, 90, 90]) =
      some ([.FILE_HDR_ACK, .REC_MISS ⟨1, [⟨0, 15⟩]⟩, .REC_MISS ⟨0, []⟩],
        some ([32, 33, 34] ++ (content35.drop 3).take 29 ++ [32, 33, 34])) ∧
    [32, 33, 34] ++ (content35.drop 3).take 29 ++ [32, 33, 34] ≠ content35 := by
  refine ⟨by decide, by decide, by decide⟩

end UdpFileTransfer
